import Mathlib

/-!
Verification development for the OpenSesame `item` scripting core
(`libopensesame/item.py`): the script parser/serializer, the variable
store with recursion-guarded substitution, type coercion (`auto_type`),
the condition compiler (`compile_cond`), the reference extractor
(`get_refs`) and the sanitization codec (`usanitize`/`unsanitize`).

Modelling conventions:
* Strings are sequences of Unicode scalar values (`List Char` under
  `String`), matching a wide build of the Python 2 interpreter the
  source targets; `os.linesep` is modelled as `"\n"` (POSIX host).
* Python `float` is modelled by an exact decimal (`Dec`, the value
  `num / 10^exp`) produced by `pyFloatParse`; the claims settled below
  only exercise values on which IEEE-754 doubles and exact decimals
  agree.
* The `regexp` helper module imported by the source is not part of the
  repository snapshot; the patterns taken from it are modelled from the
  spec and marked `Modelled from the spec` at their definitions.
* Fallible operations return `Except Err`; potentially non-terminating
  recursion (the substitution engine) takes explicit fuel and returns
  `none` when the fuel runs out.
-/

deriving instance DecidableEq for Except

namespace OpenSesame

/-! ## Character classes and Python string primitives -/

/-- Whitespace stripped by Python `str.strip()`. -/
def pyWs (c : Char) : Bool :=
  c = ' ' || c = '\t' || c = '\n' || c = '\r' || c = '\x0b' || c = '\x0c'

/-- Leading-whitespace strip. -/
def lstripWs (l : List Char) : List Char := l.dropWhile pyWs

/-- Trailing-whitespace strip. -/
def rstripWs (l : List Char) : List Char := (l.reverse.dropWhile pyWs).reverse

/-- Model of Python `str.strip()` on char lists. -/
def pyStripL (l : List Char) : List Char := rstripWs (lstripWs l)

/-- Model of Python `str.strip()`. -/
def pyStrip (s : String) : String := ⟨pyStripL s.data⟩

/-! ## Decimal integers: rendering and parsing -/

/-- Decimal digits of a natural number, most significant first; the
fuel dominates the digit count (`n < 10^n`). -/
def natReprAux : Nat → Nat → List Char
  | 0, n => [Nat.digitChar n]
  | fuel + 1, n =>
    if n < 10 then [Nat.digitChar n]
    else natReprAux fuel (n / 10) ++ [Nat.digitChar (n % 10)]

/-- Decimal digits of a natural number, most significant first
(model of Python `str` on a non-negative integer). -/
def natReprL (n : Nat) : List Char := natReprAux n n

/-- Model of Python `str` on an `int`. -/
def intReprL (i : Int) : List Char :=
  if i < 0 then '-' :: natReprL i.natAbs else natReprL i.natAbs

/-- Numeric value of a run of decimal digits. -/
def digitsNat (l : List Char) : Nat :=
  l.foldl (fun a c => a * 10 + (c.toNat - 48)) 0

/-! ## Model of Python `float()` parsing

Python's locale-independent float grammar, restricted to finite decimal
literals: optional surrounding whitespace, optional sign, an integer
and/or fractional digit run, optional decimal exponent.  The value is
kept exact as a decimal `num / 10^exp` (see the header note on the
float model). -/

/-- Exact decimal number with value `num / 10^exp`, the model of a
finite Python float.  All values the embedding builds go through
`mkDec`, which keeps the representation canonical (`num` has no factor
of ten left to strip while `exp > 0`), so structural equality is value
equality. -/
structure Dec where
  num : Int
  exp : Nat
deriving DecidableEq, Repr

/-- Strip common factors of ten (fuel-driven; `exp` bounds the number
of strippable factors). -/
def canonDec : Nat → Int → Nat → Dec
  | 0, n, _ => ⟨n, 0⟩
  | fuel + 1, n, e =>
    if e = 0 then ⟨n, 0⟩
    else if n % 10 = 0 then canonDec fuel (n / 10) (e - 1)
    else ⟨n, e⟩

/-- Canonical decimal with value `n / 10^e`. -/
def mkDec (n : Int) (e : Nat) : Dec := canonDec e n e

/-- Negation (canonical-form preserving). -/
def decNeg (d : Dec) : Dec := ⟨-d.num, d.exp⟩

/-- Parse an unsigned decimal mantissa; returns its exact value and the
unconsumed input. -/
def parseMantissa (l : List Char) : Option (Dec × List Char) :=
  let ip := l.takeWhile Char.isDigit
  let r1 := l.dropWhile Char.isDigit
  match r1 with
  | '.' :: r2 =>
    let fp := r2.takeWhile Char.isDigit
    let r3 := r2.dropWhile Char.isDigit
    if ip.isEmpty && fp.isEmpty then none
    else some (mkDec ((digitsNat ip : Int) * ((10 : Nat) ^ fp.length : Nat) + (digitsNat fp : Int)) fp.length, r3)
  | _ => if ip.isEmpty then none else some (mkDec (digitsNat ip : Int) 0, r1)

/-- Scale a mantissa by a signed power of ten. -/
def applyExp (m : Dec) (e : Int) : Dec :=
  if 0 ≤ e then
    if m.exp ≤ e.toNat then ⟨m.num * ((10 : Nat) ^ (e.toNat - m.exp) : Nat), 0⟩
    else mkDec m.num (m.exp - e.toNat)
  else mkDec m.num (m.exp + (-e).toNat)

/-- Split a leading sign off a numeric literal. -/
def stripSign (l : List Char) : Bool × List Char :=
  match l with
  | c :: r => if c = '-' then (true, r) else if c = '+' then (false, r) else (false, c :: r)
  | [] => (false, [])

/-- Parse a signed decimal exponent part (after the `e`/`E`); the whole
remaining input must be consumed. -/
def parseExpPart (l : List Char) : Option Int :=
  let (neg, l1) := stripSign l
  let ds := l1.takeWhile Char.isDigit
  if ds.isEmpty || !(l1.dropWhile Char.isDigit).isEmpty then none
  else some (if neg then -(digitsNat ds : Int) else (digitsNat ds : Int))

/-- Model of Python `float(s)` on strings: `none` when Python would
raise `ValueError` (and for the non-finite literals `inf`/`nan`, which
the callers below treat identically to a parse failure). -/
def pyFloatAfterSign (neg : Bool) (l1 : List Char) : Option Dec :=
  match parseMantissa l1 with
  | none => none
  | some (m, r) =>
    let signed := if neg then decNeg m else m
    match r with
    | [] => some signed
    | 'e' :: r2 => (parseExpPart r2).map (applyExp signed)
    | 'E' :: r2 => (parseExpPart r2).map (applyExp signed)
    | _ => none

/-- After the strip, split the sign and hand over. -/
def pyFloatAfterStrip (l : List Char) : Option Dec :=
  pyFloatAfterSign (stripSign l).1 (stripSign l).2

def pyFloatParse (s : String) : Option Dec :=
  pyFloatAfterStrip (pyStripL s.data)

/-! ## Values and type coercion -/

/-- Runtime values held by the variable store.  `strList`, `pynone` and
`obj` model the non-scalar Python objects reachable through attribute
lookup (comment lists, `None`, and opaque host objects such as the
experiment instance; the `obj` tag is a stand-in for the object's
`str()` form, which no theorem depends on). -/
inductive Value where
  | i : Int → Value
  | f : Dec → Value
  | s : String → Value
  | b : Bool → Value
  | strList : List String → Value
  | pynone : Value
  | obj : String → Value
deriving DecidableEq, Repr

/-- Decimal rendering of a float value.  Models Python 2 `str` on a
float up to the 12-significant-digit truncation, which no theorem
below depends on (claim C1's round-trip theorem excludes float values
for exactly that reason). -/
def decRepr (d : Dec) : List Char :=
  if d.exp = 0 then intReprL d.num ++ ['.', '0']
  else
    let ds := natReprL d.num.natAbs
    let ds := if ds.length ≤ d.exp then List.replicate (d.exp + 1 - ds.length) '0' ++ ds else ds
    let sign := if d.num < 0 then ['-'] else []
    sign ++ ds.take (ds.length - d.exp) ++ '.' :: ds.drop (ds.length - d.exp)

/-- Python representation of a list of strings (e.g. `['a', 'b']`). -/
def pyReprStrList (l : List String) : String :=
  "[" ++ String.intercalate ", " (l.map (fun x => "'" ++ x ++ "'")) ++ "]"

/-- Model of Python `str(val)`. -/
def pyStrV : Value → String
  | .i n => ⟨intReprL n⟩
  | .f q => ⟨decRepr q⟩
  | .s t => t
  | .b true => "True"
  | .b false => "False"
  | .strList l => pyReprStrList l
  | .pynone => "None"
  | .obj tag => tag

/-- Embedding of `item.auto_type` (src/libopensesame/item.py:419-445):
booleans become `"yes"`/`"no"`; otherwise `int(float(val)) == float(val)`
selects an integer, a successful non-integral float parse a float, and
everything else falls through the bare `except` to `str(val)`. -/
def auto_type : Value → Value
  | .b true => .s "yes"
  | .b false => .s "no"
  | .i n => .i n
  | .f q => if q.exp = 0 then .i q.num else .f q
  | .s t =>
    match pyFloatParse t with
    | some q => if q.exp = 0 then .i q.num else .f q
    | none => .s t
  | v => .s (pyStrV v)

/-! ## Line splitting

Model of Python `str.split("\n")`: `""` splits to `[""]`, and every
`'\n'` separates two (possibly empty) pieces. -/

/-- Split a char list at every newline. -/
def splitNlL : List Char → List (List Char)
  | [] => [[]]
  | c :: r =>
    if c = '\n' then [] :: splitNlL r
    else
      match splitNlL r with
      | [] => [[c]]
      | l :: ls => (c :: l) :: ls

/-- Join a list of newline-free lines, terminating each with `'\n'`
(the shape `to_string` emits). -/
def joinNlTerm (ls : List (List Char)) : List Char :=
  ls.flatMap (fun l => l ++ ['\n'])

/-! ## Model of Python `shlex.split` (POSIX mode, whitespace split)

The source tokenizes both `set` lines and conditional expressions with
`shlex.split`.  The state machine below reproduces CPython 2.7's
`shlex.read_token` for the configuration `shlex.split` uses: POSIX
rules, whitespace splitting, no comments; `'`/`"` quote, `\` escapes
(inside double quotes only `\` and `"` keep their escape meaning, and
the backslash is otherwise preserved); an unclosed quote or trailing
escape raises `ValueError` (modelled as `none`). -/

/-- Tokenizer whitespace (`shlex.whitespace`). -/
def shWs (c : Char) : Bool := c = ' ' || c = '\t' || c = '\r' || c = '\n'

/-- Tokenizer states: between tokens, inside a word, inside quotes,
after an escape character (outside or inside double quotes). -/
inductive ShSt where
  | out | word | squote | dquote | escOut | escD
deriving DecidableEq, Repr

/-- The `shlex` state machine.  `qf` is CPython's `quoted` flag (an
empty token is emitted only if it was quoted); `cur` is the current
token, reversed; `acc` the emitted tokens, reversed. -/
def shlexGo : List Char → ShSt → Bool → List Char → List String → Option (List String)
  | [], .out, _, _, acc => some acc.reverse
  | [], .word, qf, cur, acc =>
    if cur.isEmpty && !qf then some acc.reverse
    else some ((⟨cur.reverse⟩ :: acc) : List String).reverse
  | [], _, _, _, _ => none
  | c :: r, .out, _, _, acc =>
    if shWs c then shlexGo r .out false [] acc
    else if c = '\'' then shlexGo r .squote true [] acc
    else if c = '"' then shlexGo r .dquote true [] acc
    else if c = '\\' then shlexGo r .escOut false [] acc
    else shlexGo r .word false [c] acc
  | c :: r, .word, qf, cur, acc =>
    if shWs c then shlexGo r .out false [] (⟨cur.reverse⟩ :: acc)
    else if c = '\'' then shlexGo r .squote true cur acc
    else if c = '"' then shlexGo r .dquote true cur acc
    else if c = '\\' then shlexGo r .escOut qf cur acc
    else shlexGo r .word qf (c :: cur) acc
  | c :: r, .squote, qf, cur, acc =>
    if c = '\'' then shlexGo r .word qf cur acc
    else shlexGo r .squote qf (c :: cur) acc
  | c :: r, .dquote, qf, cur, acc =>
    if c = '"' then shlexGo r .word qf cur acc
    else if c = '\\' then shlexGo r .escD qf cur acc
    else shlexGo r .dquote qf (c :: cur) acc
  | c :: r, .escOut, qf, cur, acc => shlexGo r .word qf (c :: cur) acc
  | c :: r, .escD, qf, cur, acc =>
    if c = '"' || c = '\\' then shlexGo r .dquote qf (c :: cur) acc
    else shlexGo r .dquote qf (c :: '\\' :: cur) acc

/-- Model of `shlex.split(s)`; `none` models the `ValueError` raised on
an unbalanced quote or trailing escape. -/
def shlexSplit (s : String) : Option (List String) :=
  shlexGo s.data .out false [] []

/-! ## The item and experiment state -/

/-- Error taxonomy.  Every error the source raises is an
`exceptions.runtime_error` (or `script_error`) distinguished only by its
message; the constructors follow the spec's taxonomy (§7) and carry the
offending name and the owning item's name exactly as the messages do. -/
inductive Err where
  | invalidName (var : String)
  | undefinedVariable (var item : String)
  | recursionError (var item : String)
  | scriptError (line item : String)
  | conditionSyntaxError (cond item : String)
  | malformedReference (text item : String)
  | invalidValue (var : String)
  | pyError (msg : String)
deriving DecidableEq, Repr

/-- The experiment-level store.  In the source the experiment is itself
an item; the claims below only ever reach its variable map, so only
that map is modelled. -/
structure ExpSt where
  vars : List (String × Value)
deriving DecidableEq, Repr

/-- State of one item (`item.__init__`, src/libopensesame/item.py:36-66):
the fixed attributes set by the constructor, the `variables` map
(modelled as an insertion-ordered association list), the `comments`
list, the `_get_lock` recursion guard, and the linked experiment. -/
structure ItemSt where
  name : String
  itemType : String
  description : String
  count : Int
  roundDecimals : Int
  comments : List String
  vars : List (String × Value)
  lock : Option String
  exp : ExpSt
deriving DecidableEq, Repr

/-- The `reserved_words` tuple from `item.__init__`. -/
def reservedWords : List String := ["run", "prepare", "get", "set", "has"]

/-- Association-list lookup (Python dict access). -/
def alLookup (k : String) : List (String × Value) → Option Value
  | [] => none
  | (k2, v) :: r => if k2 = k then some v else alLookup k r

/-- Association-list update: an existing key keeps its position, a new
key is appended (Python dict assignment under insertion-order
iteration). -/
def alUpdate (k : String) (v : Value) : List (String × Value) → List (String × Value)
  | [] => [(k, v)]
  | (k2, w) :: r => if k2 = k then (k2, v) :: r else (k2, w) :: alUpdate k v r

/-- The attributes `item.__init__` installs on every item, as reached by
`hasattr`/`eval("self.%s" % var)`.  Non-scalar attributes (the
experiment object, the `variables` dict) are carried as opaque `obj`
values; no theorem depends on their `str()` forms. -/
def builtinAttr (st : ItemSt) : String → Option Value
  | "name" => some (.s st.name)
  | "experiment" => some (.obj "experiment")
  | "debug" => some (.b false)
  | "count" => some (.i st.count)
  | "reserved_words" => some (.strList reservedWords)
  | "_get_lock" => some (match st.lock with | none => .pynone | some v => .s v)
  | "item_type" => some (.s st.itemType)
  | "description" => some (.s st.description)
  | "round_decimals" => some (.i st.roundDecimals)
  | "variables" => some (.obj "variables")
  | "comments" => some (.strList st.comments)
  | _ => none

/-- Attribute lookup on an item.  `set` materializes every variable as a
live attribute via `exec`, in the same namespace as the constructor's
attributes and overwriting them on collision; the merged namespace is
modelled as variables-map-first lookup.  (The `exec` detour also
reinterprets backslash escapes in string values when re-reading the
attribute; no claim below reads an attribute of a backslash-containing
string, so the map value stands for the attribute value.) -/
def getattrItem (st : ItemSt) (v : String) : Option Value :=
  match alLookup v st.vars with
  | some val => some val
  | none => builtinAttr st v

/-- Model of `hasattr(self, var)`. -/
def hasattrItem (st : ItemSt) (v : String) : Bool := (getattrItem st v).isSome

/-- Model of `eval("self.experiment.%s" % var)` / `hasattr(self.experiment, var)`
restricted to the experiment's variable map (see `ExpSt`). -/
def getattrExp (e : ExpSt) (v : String) : Option Value := alLookup v e.vars

/-- Identifier characters. Modelled from the spec (§6): the
`regexp.sanitize_var_name` pattern is not in the repository snapshot;
the spec's identifier grammar is ASCII letters, digits and underscore,
not beginning with a digit. -/
def identChar (c : Char) : Bool := c.isAlpha || c.isDigit || c = '_'

/-- Valid variable name per the identifier grammar (§6). -/
def validVarName (v : String) : Bool :=
  match v.data with
  | [] => false
  | c :: r => (c.isAlpha || c = '_') && r.all identChar

/-- Embedding of `item.set` (src/libopensesame/item.py:247-273): name
validation, `auto_type` coercion, store into the variables map (and the
attribute namespace, see `getattrItem`). -/
def setVar (st : ItemSt) (var : String) (val : Value) : Except Err ItemSt :=
  if !validVarName var then .error (.invalidName var)
  else
    let v := auto_type val
    .ok { st with vars := alUpdate var v st.vars }

/-- Embedding of `item.unset` (src/libopensesame/item.py:275-289). -/
def unsetVar (st : ItemSt) (var : String) : ItemSt :=
  { st with vars := st.vars.filter (fun p => p.1 ≠ var) }

/-- Arguments Python callers may pass to `has`; the source checks
`type(var) == str` before looking anything up. -/
inductive PyIn where
  | str (s : String)
  | int (n : Int)
  | float (q : Dec)
  | noneV
  | listV (l : List String)
deriving DecidableEq, Repr

/-- Embedding of `item.has` (src/libopensesame/item.py:367-380). -/
def has (st : ItemSt) (v : PyIn) : Bool :=
  match v with
  | .str s => hasattrItem st s || (getattrExp st.exp s).isSome
  | _ => false

/-! ## Script parser and serializer -/

/-- Trailing `'\t'`/`'\n'` strip, modelling the
`while s[-1] in ("\t", "\n"): s = s[:-1]` loop of
`variable_to_string`. -/
def rstripTabNl (l : List Char) : List Char :=
  (l.reverse.dropWhile (fun c => c = '\t' || c = '\n')).reverse

/-- Whether a value is serialized as a `__name__` … `__end__` block:
a string containing a newline or a double quote
(src/libopensesame/item.py:163-164). -/
def isBlockVal : Value → Bool
  | .s t => t.data.contains '\n' || t.data.contains '"'
  | _ => false

/-- Embedding of `item.variable_to_string`
(src/libopensesame/item.py:150-180). -/
def variable_to_string (var : String) (val : Value) : List Char :=
  if isBlockVal val then
    let t := pyStrV val
    let body := '_' :: '_' :: var.data ++ '_' :: '_' :: '\n' ::
      (splitNlL t.data).flatMap (fun l => '\t' :: l ++ ['\n'])
    rstripTabNl body ++ '\n' :: '\t' :: "__end__\n".data
  else
    "set ".data ++ var.data ++ ' ' :: '"' :: (pyStrV val).data ++ '"' :: ['\n']

/-- Embedding of `item.to_string` (src/libopensesame/item.py:223-245). -/
def to_string (st : ItemSt) (ty : Option String) : List Char :=
  let t := ty.getD st.itemType
  "define ".data ++ t.data ++ ' ' :: st.name.data ++ ['\n'] ++
  st.comments.flatMap (fun c => '\t' :: '#' :: ' ' :: pyStripL c.data ++ ['\n']) ++
  st.vars.flatMap (fun p => '\t' :: variable_to_string p.1 p.2)

/-- Embedding of `item.parse_comment` (src/libopensesame/item.py:129-148). -/
def parse_comment (st : ItemSt) (line : List Char) : Option ItemSt :=
  match pyStripL line with
  | '#' :: r => some { st with comments := st.comments ++ [⟨r⟩] }
  | '/' :: '/' :: r => some { st with comments := st.comments ++ [⟨r⟩] }
  | _ => none

/-- Embedding of `item.parse_variable` (src/libopensesame/item.py:96-127):
comments first, then a shlex split expecting `set <name> <value>`;
lines that are neither are ignored. -/
def parse_variable (st : ItemSt) (line : List Char) : Except Err ItemSt :=
  match parse_comment st line with
  | some st2 => .ok st2
  | none =>
    match shlexSplit ⟨pyStripL line⟩ with
    | none => .error (.scriptError ⟨line⟩ st.name)
    | some toks =>
      match toks with
      | "set" :: a :: b :: [] => setVar st a (.s b)
      | "set" :: _ => .error (.scriptError ⟨line⟩ st.name)
      | _ => .ok st

/-- The line loop of `item.from_string`
(src/libopensesame/item.py:182-221).  `tb` is the pending
`(textblock_var, textblock_val)` pair and `stripTab` the per-block
indentation flag decided on the opening line.  A stray `__end__` with no
block open would crash the source (`set(None, …)`); modelled as
`pyError`. -/
def from_string_lines : ItemSt → Option (String × List Char) → Bool → List (List Char) → Except Err ItemSt
  | st, _, _, [] => .ok st
  | st, tb, stripTab, line :: rest =>
    let ls := pyStripL line
    if ls = "__end__".data then
      match tb with
      | some (v, val) =>
        match setVar st v (.s ⟨val⟩) with
        | .error e => .error e
        | .ok st2 => from_string_lines st2 none stripTab rest
      | none => .error (.pyError "textblock end without textblock")
    else if ls.take 2 = "__".data && (ls.reverse.take 2).reverse = "__".data then
      let inner : List Char := (ls.drop 2).dropLast.dropLast
      let inner : String := if reservedWords.contains ⟨inner⟩ then ⟨'_' :: inner⟩ else ⟨inner⟩
      let tb2 := if inner ≠ "" then some (inner, ([] : List Char)) else none
      from_string_lines st tb2 (line.head? = some '\t') rest
    else
      match tb with
      | some (v, val) =>
        let content := if stripTab then line.drop 1 else line
        from_string_lines st (some (v, val ++ content ++ ['\n'])) stripTab rest
      | none =>
        match parse_variable st line with
        | .error e => .error e
        | .ok st2 => from_string_lines st2 none stripTab rest

/-- Embedding of `item.from_string`: resets the variables map (comments
are not reset — parsing happens into a freshly constructed item) and
runs the line loop. -/
def from_string (st : ItemSt) (s : String) : Except Err ItemSt :=
  from_string_lines { st with vars := [] } none false (splitNlL s.data)

/-! ## The substitution engine: `get` and `eval_text`

`get` and `eval_text` are mutually recursive through nested variable
references and the recursion is not structurally bounded (self-referring
stores loop), so the pair is embedded as one fuel-indexed interpreter.
`none` means the fuel ran out — in the source that path is an unbounded
recursion or loop, terminated only by the host interpreter's stack
limit.  Errors carry the state at the point of raising, which is how
the source's lack of a `try`/`finally` around `_get_lock` is observed. -/

/-- Leftmost bracketed reference in a text, as `(before, name, after)`.
Modelled from the spec: `regexp.find_variable` is not in the repository
snapshot; the spec's reference grammar (§4.3) is the leftmost `[name]`
with `name` one or more non-bracket characters.  The source replaces
the first occurrence of the matched text, which is the match site
itself (an earlier occurrence of the same bracketed text would have
been an earlier match). -/
def find_variable : List Char → Option (List Char × List Char × List Char)
  | [] => none
  | c :: r =>
    let skip := (find_variable r).map (fun x => (c :: x.1, x.2.1, x.2.2))
    if c = '[' then
      let nm := r.takeWhile (fun d => d ≠ '[' && d ≠ ']')
      match r.dropWhile (fun d => d ≠ '[' && d ≠ ']') with
      | ']' :: post => if nm.isEmpty then skip else some ([], nm, post)
      | _ => skip
    else skip

/-- Fixed-decimals rendering for `float_template % val`
(`"%.Nf"`).  The rounding mode of Python's `%f` (half-even on the
underlying double) is approximated by half-up; no claim exercises it. -/
def fixedRepr (q : Dec) (n : Nat) : List Char :=
  let scaled : Int :=
    if q.exp ≤ n then q.num * ((10 : Nat) ^ (n - q.exp) : Nat)
    else (2 * q.num + ((10 : Nat) ^ (q.exp - n) : Nat)) / (2 * ((10 : Nat) ^ (q.exp - n) : Nat))
  let ds := natReprL scaled.natAbs
  let ds := if ds.length ≤ n then List.replicate (n + 1 - ds.length) '0' ++ ds else ds
  let sign := if scaled < 0 then ['-'] else []
  if n = 0 then sign ++ ds
  else sign ++ ds.take (ds.length - n) ++ '.' :: ds.drop (ds.length - n)

/-- The value-to-text step of the substitution loop: optional `'…'`
quoting for strings, optional fixed-precision formatting for floats
(using the template digits fetched at `eval_text` entry), then
`str(val)`. -/
def substText (rf qs : Bool) (tmpl : Option Value) (val : Value) : Except Err String :=
  let val : Value := match val with
    | .s t => if qs then .s ("'" ++ t ++ "'") else .s t
    | v => v
  match val with
  | .f q =>
    if rf then
      match tmpl with
      | some (.i n) => if 0 ≤ n then .ok ⟨fixedRepr q n.natAbs⟩ else .error (.pyError "bad template")
      | _ => .error (.pyError "bad template")
    else .ok (pyStrV (.f q))
  | v => .ok (pyStrV v)

/-- Requests of the combined `get`/`eval_text` interpreter. -/
inductive Req where
  | get (var : String) (ev : Bool)
  | evalText (t : Value) (rf si qs : Bool)
  | evalLoop (text : List Char) (tmpl : Option Value) (rf si qs : Bool)
deriving Repr

/-- Fuel-indexed interpreter for `item.get`
(src/libopensesame/item.py:291-329) and `item.eval_text`
(src/libopensesame/item.py:466-508).

`get`: raises `RecursionError` when the requested name equals the
in-flight `_get_lock`; resolves the name as an item attribute first,
then an experiment attribute, else raises `UndefinedVariableError`;
when evaluating, sets `_get_lock := var`, runs `eval_text` on the value
and clears the lock — only on the success path, exactly as the source
does (no `try`/`finally`).

`eval_text`: non-strings are passed to `auto_type` directly; otherwise
the float template is fetched (a nested `get` of `round_decimals`)
when `round_float` is set, and the loop substitutes the leftmost
reference until none remains, finishing with `auto_type`.  When
`soft_ignore` is set and the found name does not resolve, the source
leaves the text unchanged and re-enters the loop — an infinite loop,
faithfully rendered as fuel exhaustion. -/
def run : Nat → Req → ItemSt → Option (Except Err Value × ItemSt)
  | 0, _, _ => none
  | fuel + 1, .get var ev, st =>
    if st.lock = some var then some (.error (.recursionError var st.name), st)
    else
      match (getattrItem st var).or (getattrExp st.exp var) with
      | none => some (.error (.undefinedVariable var st.name), st)
      | some val =>
        if ev then
          match run fuel (.evalText val false false false) { st with lock := some var } with
          | none => none
          | some (.error e, st2) => some (.error e, st2)
          | some (.ok v, st2) => some (.ok v, { st2 with lock := none })
        else some (.ok val, st)
  | fuel + 1, .evalText t rf si qs, st =>
    match t with
    | .s txt =>
      if rf then
        match run fuel (.get "round_decimals" true) st with
        | none => none
        | some (.error e, st2) => some (.error e, st2)
        | some (.ok dv, st2) => run fuel (.evalLoop txt.data (some dv) rf si qs) st2
      else run fuel (.evalLoop txt.data none rf si qs) st
    | v => some (.ok (auto_type v), st)
  | fuel + 1, .evalLoop txt tmpl rf si qs, st =>
    match find_variable txt with
    | none => some (.ok (auto_type (.s ⟨txt⟩)), st)
    | some (pre, nm, post) =>
      if !si || has st (.str ⟨nm⟩) then
        match run fuel (.get ⟨nm⟩ true) st with
        | none => none
        | some (.error e, st2) => some (.error e, st2)
        | some (.ok val, st2) =>
          match substText rf qs tmpl val with
          | .error e => some (.error e, st2)
          | .ok vs => run fuel (.evalLoop (pre ++ vs.data ++ post) tmpl rf si qs) st2
      else run fuel (.evalLoop txt tmpl rf si qs) st

/-! ## Reference extraction -/

/-- Python `text.find(ch, start)` for a single character. -/
def findFrom (l : List Char) (c : Char) (start : Nat) : Option Nat :=
  match (l.drop start).findIdx? (· = c) with
  | some k => some (start + k)
  | none => none

/-- The scan loop of `get_refs`: find the next `'['` from the current
position, pair it with the next `']'` after it, record the text
between; the next scan resumes one past the `'['` (not past the
`']'`).  The source's dead `var = var[end:]` reassignment
(src/libopensesame/item.py:416, the spec's §9 "likely latent bug") has
no observable effect and is omitted.  Fuel is the text length; the scan
position strictly increases, so it never runs out. -/
def get_refs_aux (itemName : String) (t : List Char) : Nat → Nat → List String → Except Err (List String)
  | _, 0, acc => .ok acc.reverse
  | sp, fuel + 1, acc =>
    match findFrom t '[' sp with
    | none => .ok acc.reverse
    | some start =>
      match findFrom t ']' (start + 1) with
      | none => .error (.malformedReference ⟨t⟩ itemName)
      | some e =>
        get_refs_aux itemName t (start + 1) fuel
          (⟨(t.drop (start + 1)).take (e - (start + 1))⟩ :: acc)

/-- Embedding of `item.get_refs` (src/libopensesame/item.py:382-417):
non-strings yield `[]`; otherwise bracket pairs are scanned left to
right, raising on an opening bracket with no closing bracket. -/
def get_refs (st : ItemSt) (text : Value) : Except Err (List String) :=
  match text with
  | .s t => get_refs_aux st.name t.data 0 (t.data.length + 1) []
  | _ => .ok []

/-! ## Condition compiler

`compile_cond` (src/libopensesame/item.py:510-589) repairs missing
whitespace around operator characters, tokenizes with `shlex`, rewrites
tokens into Python source text and byte-compiles it.  The generated
text lives in the restricted boolean/comparison sub-grammar (spec
§4.4); the embedding parses the rewritten token list into `BExpr` and
evaluates it with Python 2 semantics for that fragment (string
comparison is lexicographic by code point, chained comparisons
short-circuit, `and`/`or` return operands, `not` returns a boolean).
Conditions using the arithmetic operators or parentheses fall outside
the fragment and are rejected by the model where CPython's `compile`
would accept them; no claim below involves such a condition. -/

/-- The `op_chars` tuple. -/
def opChars : List Char :=
  ['!', '=', '=', '<', '>', '+', '-', '(', ')', '/', '*', '%', '~', '*', '^']

/-- The `whitespace` tuple of `compile_cond`. -/
def condWs : List Char := [' ', '\t', '\n']

/-- The `operators` tuple. -/
def operatorsList : List String :=
  ["!=", "==", "=", "<", ">", ">=", "<=", "+", "-", "(", ")", "/", "*", "%", "~", "**", "^"]

/-- The `keywords` tuple. -/
def keywordsList : List String := ["and", "or", "is", "not", "true", "false"]

/-- The `capitalize` tuple. -/
def capitalizeList : List String := ["true", "false", "none"]

/-- One pass of the missing-space repair, as a fuel-driven index loop
(the fuel dominates `cs.length - i`): the first position where an
operator character lacks adjacent whitespace-or-operator gets a space
inserted (before it, else after it); `none` when the pass is clean. -/
def repairScanAux (cs : List Char) : Nat → Nat → Option (List Char)
  | 0, _ => none
  | fuel + 1, i =>
    if i < cs.length then
      if opChars.contains (cs.getD i ' ') then
        if i ≠ 0 && !(opChars.contains (cs.getD (i - 1) ' ') || condWs.contains (cs.getD (i - 1) ' ')) then
          some (cs.take i ++ ' ' :: cs.drop i)
        else if i + 1 < cs.length && !(opChars.contains (cs.getD (i + 1) ' ') || condWs.contains (cs.getD (i + 1) ' ')) then
          some (cs.take (i + 1) ++ ' ' :: cs.drop (i + 1))
        else repairScanAux cs fuel (i + 1)
      else repairScanAux cs fuel (i + 1)
    else none

/-- One pass of the missing-space repair over the whole string. -/
def repairScan (cs : List Char) (i : Nat) : Option (List Char) :=
  repairScanAux cs (cs.length + 1 - i) i

/-- The `while redo` loop around `repairScan`.  Each operator character
receives at most one space on each side and insertions never create
operator characters, so `2·len` passes reach the fixpoint; the fuel
below is a safe bound. -/
def repairLoop : Nat → List Char → List Char
  | 0, cs => cs
  | fuel + 1, cs =>
    match repairScan cs 0 with
    | none => cs
    | some cs2 => repairLoop fuel cs2

/-- The whitespace-repair pass of `compile_cond`. -/
def repairCond (cs : List Char) : List Char := repairLoop (4 * cs.length + 4) cs

/-- ASCII lower-casing of one character. -/
def charLower (c : Char) : Char :=
  if 'A' ≤ c && c ≤ 'Z' then Char.ofNat (c.toNat + 32) else c

/-- ASCII upper-casing of one character. -/
def charUpper (c : Char) : Char :=
  if 'a' ≤ c && c ≤ 'z' then Char.ofNat (c.toNat - 32) else c

/-- Python `str.lower` (ASCII fragment). -/
def strLower (s : String) : String := ⟨s.data.map charLower⟩

/-- Python `str.capitalize` (ASCII fragment): first character
upper-cased, the rest lower-cased. -/
def strCapitalize (s : String) : String :=
  match s.data with
  | [] => ""
  | c :: r => ⟨charUpper c :: r.map charLower⟩

/-- Rewritten tokens: a variable fetch `str(self.get("v"))`, a string
literal `"s"`, or verbatim operator/keyword/boolean text. -/
inductive Tok where
  | call (v : String)
  | lit (s : String)
  | op (o : String)
deriving DecidableEq, Repr

/-- The token-rewriting step of `compile_cond`
(src/libopensesame/item.py:552-576); `i` is the token index, and index
0 of a token matching no other rule is the backward-compatibility
implicit variable reference. -/
def rewriteWord (i : Nat) (w : String) : Tok :=
  if w.length > 2 && w.data.head? = some '[' && w.data.getLast? = some ']' then
    .call ⟨(w.data.drop 1).dropLast⟩
  else if w = "=" then .op "=="
  else if strLower w = "always" then .op "True"
  else if strLower w = "never" then .op "False"
  else if (operatorsList ++ keywordsList).contains (strLower w) then
    .op (if capitalizeList.contains (strLower w) then strCapitalize w else strLower w)
  else if i = 0 then .call w
  else .lit w

/-- Atoms of the compiled expression fragment. -/
inductive Atom where
  | call (v : String)
  | lit (s : String)
  | btrue
  | bfalse
deriving DecidableEq, Repr

/-- Compiled conditions: the boolean/comparison fragment of Python
expressions that `compile_cond`'s rewriting produces. -/
inductive BExpr where
  | atom (a : Atom)
  | cmp (head : Atom) (rest : List (String × Atom))
  | notE (e : BExpr)
  | andE (l r : BExpr)
  | orE (l r : BExpr)
deriving DecidableEq, Repr

/-- Comparison operators of the fragment. -/
def cmpOps : List String := ["==", "!=", "<", ">", "<=", ">="]

/-- Parse one atom. -/
def parseAtom : List Tok → Option (Atom × List Tok)
  | .call v :: r => some (.call v, r)
  | .lit s :: r => some (.lit s, r)
  | .op "True" :: r => some (.btrue, r)
  | .op "False" :: r => some (.bfalse, r)
  | _ => none

/-- Parse the comparison tail `(op atom)*`. -/
def parseCmpRest : Nat → List Tok → Option (List (String × Atom) × List Tok)
  | 0, _ => none
  | fuel + 1, toks =>
    match toks with
    | .op o :: r =>
      if cmpOps.contains o then
        match parseAtom r with
        | some (a, r2) =>
          match parseCmpRest fuel r2 with
          | some (l, r3) => some ((o, a) :: l, r3)
          | none => none
        | none => none
      else some ([], toks)
    | _ => some ([], toks)

/-- Parse a (possibly chained) comparison. -/
def parseCmp (fuel : Nat) (toks : List Tok) : Option (BExpr × List Tok) :=
  match parseAtom toks with
  | none => none
  | some (a, r) =>
    match parseCmpRest fuel r with
    | some ([], r2) => some (.atom a, r2)
    | some (rest, r2) => some (.cmp a rest, r2)
    | none => none

/-- Parse a `not`-chain over comparisons. -/
def parseNot : Nat → List Tok → Option (BExpr × List Tok)
  | 0, _ => none
  | fuel + 1, toks =>
    match toks with
    | .op "not" :: r =>
      match parseNot fuel r with
      | some (e, r2) => some (.notE e, r2)
      | none => none
    | _ => parseCmp fuel toks

/-- Parse an `and`-chain (value-equivalent right association). -/
def parseAnd : Nat → List Tok → Option (BExpr × List Tok)
  | 0, _ => none
  | fuel + 1, toks =>
    match parseNot fuel toks with
    | none => none
    | some (e, .op "and" :: r) =>
      match parseAnd fuel r with
      | some (e2, r2) => some (.andE e e2, r2)
      | none => none
    | some (e, r) => some (e, r)

/-- Parse an `or`-chain (value-equivalent right association). -/
def parseOr : Nat → List Tok → Option (BExpr × List Tok)
  | 0, _ => none
  | fuel + 1, toks =>
    match parseAnd fuel toks with
    | none => none
    | some (e, .op "or" :: r) =>
      match parseOr fuel r with
      | some (e2, r2) => some (.orE e e2, r2)
      | none => none
    | some (e, r) => some (e, r)

/-- Parse a whole rewritten token list; models `compile(code, …, "eval")`
on the fragment.  Every precedence level consumes one unit of fuel per
entry, so four units per token plus a constant is enough. -/
def parseCond (toks : List Tok) : Option BExpr :=
  match parseOr (4 * toks.length + 16) toks with
  | some (e, []) => some e
  | _ => none

/-- Embedding of `item.compile_cond` with `bytecode=True`: whitespace
repair, shlex tokenization, token rewriting, compilation.  A shlex
failure propagates as an uncaught host error (`pyError`); a compile
failure raises the source's runtime error naming the (repaired)
condition text. -/
def compile_cond (st : ItemSt) (cond : String) : Except Err BExpr :=
  let fixed : List Char := repairCond cond.data
  match shlexSplit ⟨fixed⟩ with
  | none => .error (.pyError "shlex")
  | some ws =>
    match parseCond (ws.enum.map (fun p => rewriteWord p.1 p.2)) with
    | some e => .ok e
    | none => .error (.conditionSyntaxError ⟨fixed⟩ st.name)

/-- Python truthiness of the modelled values. -/
def truthy : Value → Bool
  | .b v => v
  | .s t => !t.isEmpty
  | .i n => n ≠ 0
  | .f q => q.num ≠ 0
  | .strList l => !l.isEmpty
  | .pynone => false
  | .obj _ => true

/-- Lexicographic (code-point) order on strings — Python 2 `str`/`unicode`
comparison for the string-against-string case. -/
def strLtL : List Char → List Char → Bool
  | [], [] => false
  | [], _ :: _ => true
  | _ :: _, [] => false
  | a :: x, b :: y => if a = b then strLtL x y else a.toNat < b.toNat

/-- Python 2 comparison on the values the compiled fragment produces
(strings from `str(...)`/literals, booleans from `True`/`False`).
Cross-type equality is `False` as in Python; an order comparison
outside the string/string case is not modelled (unreachable from the
claims). -/
def pyCompare (o : String) (a b : Value) : Except Err Bool :=
  match o, a, b with
  | "==", .s x, .s y => .ok (x = y)
  | "==", .b x, .b y => .ok (x = y)
  | "==", .i x, .i y => .ok (x = y)
  | "==", _, _ => .ok false
  | "!=", .s x, .s y => .ok (x ≠ y)
  | "!=", .b x, .b y => .ok (x ≠ y)
  | "!=", .i x, .i y => .ok (x ≠ y)
  | "!=", _, _ => .ok true
  | "<", .s x, .s y => .ok (strLtL x.data y.data)
  | ">", .s x, .s y => .ok (strLtL y.data x.data)
  | "<=", .s x, .s y => .ok (!strLtL y.data x.data)
  | ">=", .s x, .s y => .ok (!strLtL x.data y.data)
  | _, _, _ => .error (.pyError "comparison outside the modelled fragment")

/-- Evaluate one atom: a `call` is `str(self.get("v"))` resolved against
the store at evaluation time. -/
def evalAtom (fuel : Nat) (a : Atom) (st : ItemSt) : Option (Except Err Value × ItemSt) :=
  match a with
  | .call v =>
    match run fuel (.get v true) st with
    | none => none
    | some (.error e, st2) => some (.error e, st2)
    | some (.ok val, st2) => some (.ok (.s (pyStrV val)), st2)
  | .lit s => some (.ok (.s s), st)
  | .btrue => some (.ok (.b true), st)
  | .bfalse => some (.ok (.b false), st)

/-- Evaluate a chained comparison's tail against the left value so far;
a failed link short-circuits (later atoms are not evaluated), as in
Python. -/
def evalCmpChain (fuel : Nat) (prev : Value) (rest : List (String × Atom)) (st : ItemSt) :
    Option (Except Err Value × ItemSt) :=
  match rest with
  | [] => some (.ok (.b true), st)
  | (o, a2) :: more =>
    match evalAtom fuel a2 st with
    | none => none
    | some (.error e, st2) => some (.error e, st2)
    | some (.ok v2, st2) =>
      match pyCompare o prev v2 with
      | .error e => some (.error e, st2)
      | .ok bv =>
        match more with
        | [] => some (.ok (.b bv), st2)
        | _ => if bv then evalCmpChain fuel v2 more st2 else some (.ok (.b false), st2)

/-- Evaluate a compiled condition against the store (Python `eval` of
the generated expression): `and`/`or` return operands, `not` returns a
boolean, comparisons chain. -/
def evalB (fuel : Nat) : BExpr → ItemSt → Option (Except Err Value × ItemSt)
  | .atom a, st => evalAtom fuel a st
  | .cmp h rest, st =>
    match evalAtom fuel h st with
    | none => none
    | some (.error e, st2) => some (.error e, st2)
    | some (.ok v, st2) => evalCmpChain fuel v rest st2
  | .notE e, st =>
    match evalB fuel e st with
    | none => none
    | some (.error er, st2) => some (.error er, st2)
    | some (.ok v, st2) => some (.ok (.b (!truthy v)), st2)
  | .andE l r, st =>
    match evalB fuel l st with
    | none => none
    | some (.error er, st2) => some (.error er, st2)
    | some (.ok v, st2) => if truthy v then evalB fuel r st2 else some (.ok v, st2)
  | .orE l r, st =>
    match evalB fuel l st with
    | none => none
    | some (.error er, st2) => some (.error er, st2)
    | some (.ok v, st2) => if truthy v then some (.ok v, st2) else evalB fuel r st2

/-- Truth value of evaluating a compiled condition, the way a caller
(`sequence.run`) uses the bytecode. -/
def evalCond (fuel : Nat) (e : BExpr) (st : ItemSt) : Option (Except Err Bool × ItemSt) :=
  match evalB fuel e st with
  | none => none
  | some (.error er, st2) => some (.error er, st2)
  | some (.ok v, st2) => some (.ok (truthy v), st2)

/-! ## Sanitization codec -/

/-- Uppercase hex digit for a value below 16. -/
def hexDigitU (n : Nat) : Char :=
  if n < 10 then Char.ofNat (48 + n) else Char.ofNat (55 + n)

/-- Uppercase hex digits, most significant first (fuel-driven; the fuel
dominates the digit count). -/
def hexReprAux : Nat → Nat → List Char
  | 0, n => [hexDigitU n]
  | fuel + 1, n =>
    if n < 16 then [hexDigitU n]
    else hexReprAux fuel (n / 16) ++ [hexDigitU (n % 16)]

/-- Uppercase hex digits of a natural number, most significant first. -/
def hexReprL (n : Nat) : List Char := hexReprAux n n

/-- Python `'U+%.4X' % n`: at least four uppercase hex digits,
zero-padded — five or more digits for code points above `0xFFFF`. -/
def escToken (n : Nat) : List Char :=
  let h := hexReprL n
  'U' :: '+' :: List.replicate (4 - h.length) '0' ++ h

/-- Per-character step of `usanitize`: code points above 127 and the
backslash (92) are escaped (default mode) or dropped (strict mode). -/
def escChar (strict : Bool) (c : Char) : List Char :=
  if 127 < c.toNat || c.toNat = 92 then
    if strict then [] else escToken c.toNat
  else [c]

/-- Python `str.replace` (all occurrences); fuel is the input length. -/
def replaceAllAux (pat rep : List Char) : Nat → List Char → List Char
  | 0, l => l
  | fuel + 1, l =>
    match l with
    | [] => []
    | c :: r =>
      if pat ≠ [] ∧ pat.isPrefixOf l then
        rep ++ replaceAllAux pat rep fuel (l.drop pat.length)
      else c :: replaceAllAux pat rep fuel r

/-- Python `s.replace(pat, rep)`. -/
def replaceAllL (l pat rep : List Char) : List Char :=
  replaceAllAux pat rep l.length l

/-- The modelled `os.linesep` (POSIX host, see the header note). -/
def pyLinesep : List Char := ['\n']

/-- Embedding of `item.usanitize` (src/libopensesame/item.py:603-633):
escape (or in strict mode drop) every character above ASCII or equal to
the backslash, then normalize `os.linesep` to `"\n"`. -/
def usanitize (s : String) (strict : Bool) : String :=
  ⟨replaceAllL (s.data.flatMap (escChar strict)) pyLinesep ['\n']⟩

/-- Uppercase-hex digit test.  Modelled from the spec (§6/§4.1): the
`regexp.unsanitize` pattern is not in the repository snapshot; the
spec's escape-token shape is `U+` followed by exactly four uppercase
hex digits. -/
def isHexU (c : Char) : Bool :=
  (48 ≤ c.toNat && c.toNat ≤ 57) || (65 ≤ c.toNat && c.toNat ≤ 70)

/-- Value of an uppercase hex digit. -/
def hexVal (c : Char) : Nat :=
  if c ≤ '9' then c.toNat - 48 else c.toNat - 55

/-- Decode an escape token at the head of the input, if present.
`unichr` of a surrogate value (a wide Python 2 build accepts it) is not
representable as a scalar value; `Char.ofNat` maps it to `NUL`, a
divergence no claim reaches. -/
def headToken (l : List Char) : Option (Char × List Char) :=
  match l with
  | u :: p :: a :: b :: c :: d :: rest =>
    if u = 'U' ∧ p = '+' ∧ isHexU a ∧ isHexU b ∧ isHexU c ∧ isHexU d then
      some (Char.ofNat (hexVal a * 4096 + hexVal b * 256 + hexVal c * 16 + hexVal d), rest)
    else none
  | _ => none

/-- Replace the leftmost escape token, if any.  The source replaces the
first occurrence of the matched text, which is the match site itself
(an earlier occurrence of the same six characters would have been an
earlier match). -/
def unsanStep : List Char → Option (List Char)
  | [] => none
  | c :: r =>
    match headToken (c :: r) with
    | some (ch, rest) => some (ch :: rest)
    | none => (unsanStep r).map (c :: ·)

/-- The `while True` replacement loop of `unsanitize`; every step
shortens the string by five characters, so the initial length is
enough fuel. -/
def unsanLoop : Nat → List Char → List Char
  | 0, l => l
  | fuel + 1, l =>
    match unsanStep l with
    | none => l
    | some l2 => unsanLoop fuel l2

/-- Embedding of `item.unsanitize` (src/libopensesame/item.py:662-680). -/
def unsanitize (s : String) : String :=
  ⟨unsanLoop s.data.length s.data⟩

/-! ## Concrete fixtures for the claim theorems -/

/-- A freshly constructed item with no variables or comments. -/
def baseItem : ItemSt :=
  { name := "itm", itemType := "item", description := "Default description", count := 0,
    roundDecimals := 2, comments := [], vars := [], lock := none, exp := ⟨[]⟩ }

/-- The store `{x: 5, y: "[x]"}` of claim C6. -/
def storeXY : ItemSt := { baseItem with vars := [("x", .i 5), ("y", .s "[x]")] }

/-- The self-referential store `{x: "[x]"}`. -/
def storeSelfRef : ItemSt := { baseItem with vars := [("x", .s "[x]")] }

/-- The two-cycle store `{a: "[b]", b: "[a]"}` of claim C3. -/
def storeCycle : ItemSt := { baseItem with vars := [("a", .s "[b]"), ("b", .s "[a]")] }

/-- A store holding `rt`. -/
def storeRt (n : Int) : ItemSt := { baseItem with vars := [("rt", .i n)] }

/-- Compile-and-evaluate helper: the truth value a condition yields
against a store (the state after evaluation dropped). -/
def condValue (cond : String) (st : ItemSt) : Except Err (Option (Except Err Bool)) :=
  (compile_cond baseItem cond).map (fun e => (evalCond 20 e st).map Prod.fst)

/-! ## Claim C5: basic condition compilation and evaluation -/

/-- Characters `shlex` passes through unchanged inside a word. -/
def shTok (c : Char) : Bool :=
  !shWs c && !(c = '\'') && !(c = '"') && !(c = '\\')

/-- Characters safe in the header line: no Python whitespace, no quote,
no backslash. -/
def hdrCh (c : Char) : Bool :=
  !pyWs c && !(c = '\'') && !(c = '"') && !(c = '\\')

/-- A comment that survives the serialize/parse cycle: a single leading
space plus its nonempty, newline-free stripped body. -/
def commentSafe (c : String) : Prop :=
  '\n' ∉ c.data ∧ pyStripL c.data ≠ [] ∧ c.data = ' ' :: pyStripL c.data

/-- A line whose stripped form would open (or close) a textblock. -/
def dangerShape (l : List Char) : Prop :=
  (pyStripL l).take 2 = "__".data ∧ ((pyStripL l).reverse.take 2).reverse = "__".data

/-- The final character of a block's second-to-last line must survive
the serializer's trailing `\t`/`\n` strip. -/
def goodPenult (p : List Char) : Bool :=
  match p.reverse with
  | [] => false
  | c :: _ => !(c = '\t' || c = '\n')

/-- A single-line string value that survives the cycle: not numeric,
no backslash (and no newline or quote, which is what put it on the
single-line path). -/
def flatSafe (t : String) : Prop :=
  pyFloatParse t = none ∧ '\\' ∉ t.data

/-- A block string value that survives the cycle: its name avoids the
reserved words and `end`; it is not numeric; it ends in exactly one
newline, its last content line is nonempty and does not end in a tab,
and no content line strips to a `__…__` marker. -/
def blockSafe (x : String) (t : String) : Prop :=
  x ∉ reservedWords ∧ x ≠ "end" ∧ pyFloatParse t = none ∧
  ∃ init p, splitNlL t.data = init ++ [p, []] ∧ goodPenult p = true ∧
    ∀ l ∈ init ++ [p], ¬ dangerShape l

/-- A variable binding that survives the cycle. -/
def varSafe (x : String) (v : Value) : Prop :=
  validVarName x = true ∧
  match v with
  | .i _ => True
  | .s t => if '\n' ∈ t.data ∨ '"' ∈ t.data then blockSafe x t else flatSafe t
  | _ => False

/-- A round-trip-safe definition: clean nonempty header fields, safe
comments, distinct names, safe bindings. -/
def roundTripSafe (d : ItemSt) : Prop :=
  d.itemType.data ≠ [] ∧ d.itemType.data.all hdrCh = true ∧
  d.name.data ≠ [] ∧ d.name.data.all hdrCh = true ∧
  (∀ c ∈ d.comments, commentSafe c) ∧
  (d.vars.map Prod.fst).Nodup ∧
  (∀ p ∈ d.vars, varSafe p.1 p.2)

/-- Join with newline separators (the inverse of `splitNlL`). -/
def joinNlSep : List (List Char) → List Char
  | [] => []
  | [l] => l
  | l :: ls => l ++ '\n' :: joinNlSep ls

instance (c : String) : Decidable (commentSafe c) := by
  unfold commentSafe
  infer_instance

instance (l : List Char) : Decidable (dangerShape l) := by
  unfold dangerShape
  infer_instance

/-- A concrete definition exercising all three safe binding shapes. -/
def rtDemo : ItemSt :=
  { baseItem with
    comments := [" note"],
    vars := [("x", .i 3), ("msg", .s "hello world"), ("txt", .s "line1\"\nline2\n")] }

/-- The definition used by the C1 counterexample: one comment and one
quote-containing single-line string variable. -/
def dBad : ItemSt := { baseItem with comments := ["c"], vars := [("x", .s "a\"")] }

/-- Characters `usanitize` keeps verbatim. -/
def plainCh (c : Char) : Bool := c.toNat ≤ 127 && c.toNat ≠ 92

/-- The escaping map of the default mode. -/
def escMap (cs : List Char) : List Char := cs.flatMap (escChar false)

/-- The string holding the single code point `U+1F600`. -/
def astralStr : String := ⟨[Char.ofNat 128512]⟩

/-- C5: the predicate compiled from `"[a] = 1"` evaluates to true
against `{a: 1}` and false against `{a: 2}`; the predicate compiled
from `"always"` evaluates to true against every store. -/
theorem compile_cond_eval_basic :
    compile_cond baseItem "[a] = 1" = .ok (.cmp (.call "a") [("==", .lit "1")]) ∧
    condValue "[a] = 1" { baseItem with vars := [("a", .i 1)] } = .ok (some (.ok true)) ∧
    condValue "[a] = 1" { baseItem with vars := [("a", .i 2)] } = .ok (some (.ok false)) ∧
    compile_cond baseItem "always" = .ok (.atom .btrue) ∧
    (∀ (fuel : Nat) (st : ItemSt), evalCond fuel (.atom .btrue) st = some (.ok true, st)) :=
  ⟨by decide, by decide, by decide, by decide, fun _ _ => rfl⟩

/-! ## Claim C4: the whitespace-repair pass on an unspaced condition -/

/-- C4 counterexample: against the store `{rt: 2000}`, the predicate
compiled from `"[rt]>200and[rt]<500"` evaluates to false while the one
compiled from the spaced form evaluates to true, so the two are not
equivalent against every store. -/
theorem compile_cond_unspaced_cx :
    condValue "[rt]>200and[rt]<500" (storeRt 2000) = .ok (some (.ok false)) ∧
    condValue "[rt] > 200 and [rt] < 500" (storeRt 2000) = .ok (some (.ok true)) :=
  ⟨by decide, by decide⟩

/-- C4 amended: the unspaced form compiles successfully, but the repair
pass only adds spaces around operator characters and never splits the
digit–letter boundary inside `200and`, so `200and[rt]` survives as one
token and is rewritten to a string literal: the compiled predicate is
the chained comparison `str(get(rt)) > "200and[rt]" < "500"`.  It
agrees with the spaced form against `{rt: 300}` but differs against
`{rt: 2000}`. -/
theorem compile_cond_unspaced_repair :
    repairCond "[rt]>200and[rt]<500".data = "[rt] > 200and[rt] < 500".data ∧
    compile_cond baseItem "[rt]>200and[rt]<500"
      = .ok (.cmp (.call "rt") [(">", .lit "200and[rt]"), ("<", .lit "500")]) ∧
    compile_cond baseItem "[rt] > 200 and [rt] < 500"
      = .ok (.andE (.cmp (.call "rt") [(">", .lit "200")])
          (.cmp (.call "rt") [("<", .lit "500")])) ∧
    condValue "[rt]>200and[rt]<500" (storeRt 300) = .ok (some (.ok true)) ∧
    condValue "[rt] > 200 and [rt] < 500" (storeRt 300) = .ok (some (.ok true)) ∧
    condValue "[rt]>200and[rt]<500" (storeRt 2000) = .ok (some (.ok false)) ∧
    condValue "[rt] > 200 and [rt] < 500" (storeRt 2000) = .ok (some (.ok true)) :=
  ⟨by decide, by decide, by decide, by decide, by decide, by decide, by decide⟩

/-! ## Claim C6: transitive substitution with final coercion -/

/-- C6: with a store `{x: 5, y: "[x]"}`, `eval_text("[y]")` returns the
integer 5 — substitution runs through the string value of `y` into the
reference to `x`, and the fully substituted text passes through
`auto_type` — and the integer 5 is not the string `"5"`. -/
theorem eval_text_transitive_coercion :
    run 20 (.evalText (.s "[y]") false false false) storeXY = some (.ok (.i 5), storeXY) ∧
    Value.i 5 ≠ .s "5" :=
  ⟨by decide, by decide⟩

/-! ## Claim C2: the recursion guard is not cleared on error paths -/

/-- C2 (code bug): on the store `{x: "[x]"}`, `get("x")` raises
`RecursionError` and leaves `_get_lock = "x"` — the source clears the
lock only on the success path, with no `try`/`finally` — so after
`set("x", "5")` the next `get("x")` still raises `RecursionError`,
while with a cleared guard (third conjunct) the same call returns 5. -/
theorem get_lock_leak_bug :
    run 20 (.get "x" true) storeSelfRef
      = some (.error (.recursionError "x" "itm"), { storeSelfRef with lock := some "x" }) ∧
    (setVar { storeSelfRef with lock := some "x" } "x" (.s "5")).map
      (fun st2 => run 20 (.get "x" true) st2)
      = .ok (some (.error (.recursionError "x" "itm"),
          { baseItem with vars := [("x", .i 5)], lock := some "x" })) ∧
    run 20 (.get "x" true) { baseItem with vars := [("x", .i 5)] }
      = some (.ok (.i 5), { baseItem with vars := [("x", .i 5)] }) :=
  ⟨by decide, by decide, by decide⟩

/-! ## Claim C7: `auto_type` -/

/-- C7: `auto_type` coerces to the best-fitting scalar: `"3"` to the
integer 3, `"3.50"` to the float 3.5, `"three"` to itself, booleans to
`"yes"`/`"no"`; in general a string parsing as an integral float is
stored as an integer, a non-integral parse as a float, and a failed
parse is returned unchanged. -/
theorem auto_type_best_fit :
    auto_type (.s "3") = .i 3 ∧
    auto_type (.s "3.50") = .f ⟨35, 1⟩ ∧
    auto_type (.s "three") = .s "three" ∧
    auto_type (.b true) = .s "yes" ∧
    auto_type (.b false) = .s "no" ∧
    (∀ (s : String) (q : Dec), pyFloatParse s = some q →
      auto_type (.s s) = if q.exp = 0 then .i q.num else .f q) ∧
    (∀ s : String, pyFloatParse s = none → auto_type (.s s) = .s s) := by
  refine ⟨by decide, by decide, by decide, rfl, rfl, fun s q h => ?_, fun s h => ?_⟩
  · simp [auto_type, h]
  · simp [auto_type, h]

/-- C7 witness: the general clauses applied at `"2.5"` (a non-integral
parse) and `"abc"` (a failed parse). -/
theorem auto_type_best_fit_witness :
    auto_type (.s "2.5") = .f ⟨25, 1⟩ ∧ auto_type (.s "abc") = .s "abc" := by
  constructor
  · have h := auto_type_best_fit.2.2.2.2.2.1 "2.5" ⟨25, 1⟩ (by decide)
    simpa using h
  · exact auto_type_best_fit.2.2.2.2.2.2 "abc" (by decide)

/-! ## Claim C9: reference extraction -/

/-- C9: `get_refs` extracts the bracketed names left to right —
`"score=[a], time=[b]"` yields exactly `["a", "b"]` — raises on an
opening bracket with no closing bracket, and performs no resolution:
its result depends only on the item's name (used in the error
message), not on any store contents. -/
theorem get_refs_scan :
    get_refs baseItem (.s "score=[a], time=[b]") = .ok ["a", "b"] ∧
    get_refs baseItem (.s "[unterminated")
      = .error (.malformedReference "[unterminated" "itm") ∧
    (∀ (st1 st2 : ItemSt) (t : Value), st1.name = st2.name →
      get_refs st1 t = get_refs st2 t) := by
  refine ⟨by decide, by decide, fun st1 st2 t h => ?_⟩
  cases t <;> simp [get_refs, h]

/-- C9 witness: the no-resolution clause applied to two stores sharing
a name but holding different variables. -/
theorem get_refs_scan_witness :
    get_refs { baseItem with vars := [("a", .i 1)] } (.s "x[a]y") = get_refs baseItem (.s "x[a]y") :=
  get_refs_scan.2.2 _ _ _ rfl

/-! ## Claim C10: `has` and attribute-path lookup -/

/-- C10: `has` answers true for every existing attribute — including
the constructor-installed `name`, `count`, `comments`, `variables` and
`experiment`, whatever the store holds — and false for every
non-string argument; `get` (without evaluation) returns the
attribute's value through the same lookup path, shown here for the
scalar builtins `name` and `count` when no stored variable shadows
them. -/
theorem has_get_builtin_attrs :
    (∀ st : ItemSt, has st (.str "name") = true ∧ has st (.str "count") = true ∧
      has st (.str "comments") = true ∧ has st (.str "variables") = true ∧
      has st (.str "experiment") = true) ∧
    (∀ (st : ItemSt) (v : PyIn), (∀ s, v ≠ .str s) → has st v = false) ∧
    (∀ st : ItemSt, st.lock ≠ some "name" → alLookup "name" st.vars = none →
      run 1 (.get "name" false) st = some (.ok (.s st.name), st)) ∧
    (∀ st : ItemSt, st.lock ≠ some "count" → alLookup "count" st.vars = none →
      run 1 (.get "count" false) st = some (.ok (.i st.count), st)) := by
  have hb : ∀ (st : ItemSt) (a : String), (builtinAttr st a).isSome = true →
      has st (.str a) = true := by
    intro st a hba
    cases hl : alLookup a st.vars
    · simp [has, hasattrItem, getattrItem, hl, hba]
    · simp [has, hasattrItem, getattrItem, hl]
  refine ⟨fun st => ⟨hb st "name" rfl, hb st "count" rfl,
      hb st "comments" rfl, hb st "variables" rfl,
      hb st "experiment" rfl⟩,
    fun st v hv => ?_, fun st h1 h2 => ?_, fun st h1 h2 => ?_⟩
  · cases v with
    | str s => exact absurd rfl (hv s)
    | _ => rfl
  · simp [run, h1, getattrItem, h2, builtinAttr]
  · simp [run, h1, getattrItem, h2, builtinAttr]

/-- C10 witness: the clauses applied at the fresh item (and at a
non-string argument). -/
theorem has_get_builtin_attrs_witness :
    has baseItem (.str "name") = true ∧ has baseItem (.int 3) = false ∧
    run 1 (.get "name" false) baseItem = some (.ok (.s "itm"), baseItem) := by
  refine ⟨(has_get_builtin_attrs.1 baseItem).1,
    has_get_builtin_attrs.2.1 baseItem (.int 3) (fun s h => by cases h),
    has_get_builtin_attrs.2.2.1 baseItem (by decide) (by decide)⟩

/-! ## Claim C1: parser/serializer round trip

Safety predicates.  The counterexample below shows the round trip
fails in general; the amended theorem proves it on the class of
definitions the counterexample leaves available. -/

/-- Dropping with an everywhere-false predicate keeps the list. -/
theorem dropWhile_all_false (p : Char → Bool) :
    ∀ l : List Char, (∀ c ∈ l, p c = false) → l.dropWhile p = l := by
  intro l h
  induction l with
  | nil => rfl
  | cons c r ih =>
    rw [List.dropWhile_cons_of_neg (by simp [h c (by simp)])]

/-- Strip is the identity on a list with no boundary whitespace. -/
theorem pyStripL_id (l : List Char) (h : ∀ c ∈ l, pyWs c = false) : pyStripL l = l := by
  unfold pyStripL lstripWs rstripWs
  rw [dropWhile_all_false pyWs l h, dropWhile_all_false pyWs l.reverse
    (fun c hc => h c (List.mem_reverse.mp hc)), List.reverse_reverse]

/-- Right strip is the identity when the last character is not
whitespace. -/
theorem rstripWs_last (l : List Char) (c : Char) (s : List Char)
    (h : l.reverse = c :: s) (hc : pyWs c = false) : rstripWs l = l := by
  unfold rstripWs
  rw [h, List.dropWhile_cons_of_neg (by simp [hc]), ← h, List.reverse_reverse]

/-- A leading tab is stripped away. -/
theorem pyStripL_tab (l : List Char) : pyStripL ('\t' :: l) = pyStripL l := by
  unfold pyStripL lstripWs
  rw [List.dropWhile_cons_of_pos (by decide)]

/-- Strip keeps a non-whitespace head. -/
theorem pyStripL_cons (c : Char) (l : List Char) (hc : pyWs c = false) :
    ∃ rest, pyStripL (c :: l) = c :: rest := by
  unfold pyStripL lstripWs
  rw [List.dropWhile_cons_of_neg (by simp [hc])]
  unfold rstripWs
  rw [List.reverse_cons, List.dropWhile_append]
  by_cases he : (l.reverse.dropWhile pyWs).isEmpty
  · rw [if_pos he, List.dropWhile_cons_of_neg (by simp [hc])]
    exact ⟨[], rfl⟩
  · rw [if_neg he]
    exact ⟨(l.reverse.dropWhile pyWs).reverse, by simp⟩

/-- Splitting always yields at least one piece. -/
theorem splitNlL_ne_nil : ∀ l : List Char, ∃ a as, splitNlL l = a :: as := by
  intro l
  induction l with
  | nil => exact ⟨[], [], rfl⟩
  | cons c r ih =>
    obtain ⟨a, as, ha⟩ := ih
    by_cases hc : c = '\n'
    · subst hc
      exact ⟨[], splitNlL r, by rw [splitNlL, if_pos rfl]⟩
    · exact ⟨c :: a, as, by rw [splitNlL, if_neg hc, ha]⟩

/-- Equation lemmas for `joinNlSep`. -/
theorem joinNlSep_single (l : List Char) : joinNlSep [l] = l := rfl

/-- Two-or-more-piece equation for `joinNlSep`. -/
theorem joinNlSep_cons2 (l b : List Char) (bs : List (List Char)) :
    joinNlSep (l :: b :: bs) = l ++ '\n' :: joinNlSep (b :: bs) := rfl

/-- Joining the pieces restores the list. -/
theorem joinNlSep_splitNlL : ∀ l : List Char, joinNlSep (splitNlL l) = l := by
  intro l
  induction l with
  | nil => rfl
  | cons c r ih =>
    obtain ⟨a, as, ha⟩ := splitNlL_ne_nil r
    rw [ha] at ih
    by_cases hc : c = '\n'
    · subst hc
      rw [splitNlL, if_pos rfl, ha, joinNlSep_cons2, List.nil_append, ih]
    · rw [splitNlL, if_neg hc, ha]
      cases as with
      | nil =>
        rw [joinNlSep_single] at ih ⊢
        rw [ih]
      | cons b bs =>
        rw [joinNlSep_cons2] at ih ⊢
        rw [List.cons_append, ih]

/-- Splitting a newline-terminated flat line peels it off. -/
theorem splitNlL_flat : ∀ (l rest : List Char), '\n' ∉ l →
    splitNlL (l ++ '\n' :: rest) = l :: splitNlL rest := by
  intro l
  induction l with
  | nil =>
    intro rest _
    rw [List.nil_append, splitNlL, if_pos rfl]
  | cons c r ih =>
    intro rest h
    have hc : c ≠ '\n' := by
      intro hcc
      exact h (by simp [hcc])
    rw [List.cons_append, splitNlL, if_neg hc, ih rest (by simp at h; exact h.2)]

/-- Splitting a block of newline-terminated flat lines. -/
theorem splitNlL_joinNlTerm : ∀ ls : List (List Char), (∀ l ∈ ls, '\n' ∉ l) →
    splitNlL (joinNlTerm ls) = ls ++ [[]] := by
  intro ls h
  induction ls with
  | nil => rfl
  | cons a as ih =>
    have ha : '\n' ∉ a := h a (by simp)
    rw [joinNlTerm, List.flatMap_cons]
    have hsh : a ++ ['\n'] ++ as.flatMap (fun l => l ++ ['\n'])
        = a ++ '\n' :: as.flatMap (fun l => l ++ ['\n']) := by simp
    rw [hsh, splitNlL_flat a _ ha,
      show as.flatMap (fun l => l ++ ['\n']) = joinNlTerm as from rfl,
      ih (fun l hl => h l (by simp [hl]))]
    rfl

/-- Pieces of a split contain no newline. -/
theorem splitNlL_no_nl : ∀ (l x : List Char), x ∈ splitNlL l → '\n' ∉ x := by
  intro l
  induction l with
  | nil =>
    intro x hx
    simp [splitNlL] at hx
    simp [hx]
  | cons c r ih =>
    intro x hx
    by_cases hc : c = '\n'
    · subst hc
      rw [splitNlL, if_pos rfl] at hx
      rcases List.mem_cons.mp hx with h1 | h1
      · simp [h1]
      · exact ih x h1
    · rw [splitNlL, if_neg hc] at hx
      obtain ⟨a, as, ha⟩ := splitNlL_ne_nil r
      rw [ha] at hx
      rcases List.mem_cons.mp hx with h1 | h1
      · subst h1
        intro hm
        rcases List.mem_cons.mp hm with h2 | h2
        · exact hc h2.symm
        · exact ih a (by rw [ha]; exact List.mem_cons_self _ _) h2
      · exact ih x (by rw [ha]; exact List.mem_cons_of_mem _ h1)

/-- A terminated join equals a separated join with a trailing empty
piece. -/
theorem joinNlSep_concat : ∀ A : List (List Char), joinNlSep (A ++ [[]]) = joinNlTerm A := by
  intro A
  induction A with
  | nil => rfl
  | cons a as ih =>
    cases as with
    | nil =>
      rw [show ([a] ++ [[]] : List (List Char)) = [a, []] from rfl, joinNlSep_cons2,
        joinNlSep_single, joinNlTerm]
      simp
    | cons b bs =>
      simp only [List.cons_append] at ih ⊢
      rw [joinNlSep_cons2, ih, joinNlTerm, List.flatMap_cons]
      simp [joinNlTerm]

/-- Value of a rendered decimal digit. -/
theorem digitChar_toNat (m : Nat) (h : m < 10) : (Nat.digitChar m).toNat = 48 + m := by
  interval_cases m <;> decide

/-- A rendered decimal digit is a digit. -/
theorem digitChar_isDigit (m : Nat) (h : m < 10) : (Nat.digitChar m).isDigit = true := by
  interval_cases m <;> decide

/-- Append step of the digit accumulator. -/
theorem digitsNat_append_digit (A : List Char) (c : Char) :
    digitsNat (A ++ [c]) = digitsNat A * 10 + (c.toNat - 48) := by
  unfold digitsNat
  rw [List.foldl_append]
  rfl

/-- The decimal rendering produces digits only, reads back to its
value, and is nonempty. -/
theorem natReprAux_spec : ∀ (fuel m : Nat), m ≤ fuel →
    (∀ c ∈ natReprAux fuel m, c.isDigit = true) ∧
    digitsNat (natReprAux fuel m) = m ∧ natReprAux fuel m ≠ [] := by
  intro fuel
  induction fuel with
  | zero =>
    intro m hm
    have hm0 : m = 0 := by omega
    subst hm0
    refine ⟨?_, by decide, by simp [natReprAux]⟩
    intro c hc
    simp [natReprAux] at hc
    rw [hc]
    decide
  | succ f ih =>
    intro m hm
    by_cases h10 : m < 10
    · rw [natReprAux, if_pos h10]
      refine ⟨?_, ?_, by simp⟩
      · intro c hc
        simp at hc
        rw [hc]
        exact digitChar_isDigit m h10
      · show digitsNat [Nat.digitChar m] = m
        have h1 : digitsNat [Nat.digitChar m] = 0 * 10 + ((Nat.digitChar m).toNat - 48) := rfl
        rw [h1, digitChar_toNat m h10]
        omega
    · rw [natReprAux, if_neg h10]
      have hrec := ih (m / 10) (by omega)
      refine ⟨?_, ?_, by simp⟩
      · intro c hc
        rcases List.mem_append.mp hc with h1 | h1
        · exact hrec.1 c h1
        · simp at h1
          rw [h1]
          exact digitChar_isDigit _ (by omega)
      · rw [digitsNat_append_digit, hrec.2.1, digitChar_toNat _ (by omega)]
        omega

/-- Rendering facts specialized to `natReprL`. -/
theorem natReprL_spec (m : Nat) :
    digitsNat (natReprL m) = m ∧ (∀ c ∈ natReprL m, c.isDigit = true) ∧ natReprL m ≠ [] := by
  have h := natReprAux_spec m m (Nat.le_refl m)
  exact ⟨h.2.1, h.1, h.2.2⟩

/-- A character with one Boolean classifier cannot have the classifier
false at another. -/
theorem bool_pred_ne (p : Char → Bool) (c : Char) (h : p c = true) (s : Char)
    (hs : p s = false) : c ≠ s := by
  intro he
  subst he
  rw [h] at hs
  cases hs

/-- Digits are not whitespace. -/
theorem isDigit_not_ws (c : Char) (h : c.isDigit = true) : pyWs c = false := by
  unfold pyWs
  simp [bool_pred_ne Char.isDigit c h ' ' (by decide),
    bool_pred_ne Char.isDigit c h '\t' (by decide),
    bool_pred_ne Char.isDigit c h '\n' (by decide),
    bool_pred_ne Char.isDigit c h '\r' (by decide),
    bool_pred_ne Char.isDigit c h '\x0b' (by decide),
    bool_pred_ne Char.isDigit c h '\x0c' (by decide)]

/-- Taking with an everywhere-true predicate keeps the whole list. -/
theorem takeWhile_all_true (p : Char → Bool) :
    ∀ l : List Char, (∀ c ∈ l, p c = true) → l.takeWhile p = l ∧ l.dropWhile p = [] := by
  intro l h
  induction l with
  | nil => exact ⟨rfl, rfl⟩
  | cons c r ih =>
    have hc : p c = true := h c (by simp)
    have hr := ih (fun d hd => h d (by simp [hd]))
    exact ⟨by rw [List.takeWhile_cons_of_pos hc, hr.1],
      by rw [List.dropWhile_cons_of_pos hc, hr.2]⟩

/-- Nonempty lists are not `isEmpty`. -/
theorem ne_nil_isEmpty (l : List Char) (h : l ≠ []) : l.isEmpty = false := by
  cases l with
  | nil => exact absurd rfl h
  | cons a r => rfl

/-- A sign-free head passes `stripSign` through. -/
theorem stripSign_other (c : Char) (cs : List Char) (h1 : c ≠ '-') (h2 : c ≠ '+') :
    stripSign (c :: cs) = (false, c :: cs) := by
  simp [stripSign, h1, h2]

/-- Parsing an all-digit run. -/
theorem parseMantissa_digits (l : List Char) (hd : ∀ c ∈ l, c.isDigit = true) (hne : l ≠ []) :
    parseMantissa l = some (mkDec (digitsNat l : Int) 0, []) := by
  cases l with
  | nil => exact absurd rfl hne
  | cons a r =>
    unfold parseMantissa
    rw [(takeWhile_all_true _ _ hd).1, (takeWhile_all_true _ _ hd).2]
    rfl

/-- Python `float` reads back the decimal rendering of any integer. -/
theorem pyFloatParse_intRepr (n : Int) : pyFloatParse ⟨intReprL n⟩ = some ⟨n, 0⟩ := by
  obtain ⟨hval, hdig, hne⟩ := natReprL_spec n.natAbs
  have hstrip0 : ∀ c ∈ natReprL n.natAbs, pyWs c = false :=
    fun c hc => isDigit_not_ws c (hdig c hc)
  obtain ⟨c0, cs0, hrep⟩ : ∃ c0 cs0, natReprL n.natAbs = c0 :: cs0 := by
    cases hc : natReprL n.natAbs with
    | nil => exact absurd hc hne
    | cons a r => exact ⟨a, r, rfl⟩
  have hc0 : c0.isDigit = true := hdig c0 (by rw [hrep]; simp)
  show pyFloatAfterStrip (pyStripL (intReprL n)) = some ⟨n, 0⟩
  by_cases hneg : n < 0
  · rw [intReprL, if_pos hneg, pyStripL_id _ ?hws]
    case hws =>
      intro c hc
      rcases List.mem_cons.mp hc with h1 | h1
      · rw [h1]
        decide
      · exact hstrip0 c h1
    show pyFloatAfterSign true (natReprL n.natAbs) = some ⟨n, 0⟩
    unfold pyFloatAfterSign
    rw [parseMantissa_digits _ hdig hne]
    show some (decNeg (mkDec (digitsNat (natReprL n.natAbs) : Int) 0)) = some ⟨n, 0⟩
    rw [hval]
    show some (decNeg ⟨(n.natAbs : Int), 0⟩) = some ⟨n, 0⟩
    unfold decNeg
    simp only [Option.some.injEq, Dec.mk.injEq]
    exact ⟨by omega, trivial⟩
  · rw [intReprL, if_neg hneg, pyStripL_id _ hstrip0, hrep]
    show pyFloatAfterSign (stripSign (c0 :: cs0)).1 (stripSign (c0 :: cs0)).2 = some ⟨n, 0⟩
    rw [stripSign_other c0 cs0 (bool_pred_ne Char.isDigit c0 hc0 '-' (by decide))
      (bool_pred_ne Char.isDigit c0 hc0 '+' (by decide))]
    show pyFloatAfterSign false (c0 :: cs0) = some ⟨n, 0⟩
    rw [← hrep]
    unfold pyFloatAfterSign
    rw [parseMantissa_digits _ hdig hne]
    show some (mkDec (digitsNat (natReprL n.natAbs) : Int) 0) = some ⟨n, 0⟩
    rw [hval]
    show some ((⟨(n.natAbs : Int), 0⟩ : Dec)) = some ⟨n, 0⟩
    simp only [Option.some.injEq, Dec.mk.injEq]
    exact ⟨by omega, trivial⟩

/-- The serializer's rendering of an integer re-parses to that
integer. -/
theorem auto_type_intRepr (n : Int) : auto_type (.s ⟨intReprL n⟩) = .i n := by
  simp [auto_type, pyFloatParse_intRepr n]

/-- Heads of a `dropWhile` fail the predicate. -/
theorem dropWhile_head_not (p : Char → Bool) :
    ∀ (l : List Char) (a : Char) (r : List Char), l.dropWhile p = a :: r → p a = false := by
  intro l
  induction l with
  | nil => intro a r h; cases h
  | cons c cr ih =>
    intro a r h
    by_cases hc : p c
    · rw [List.dropWhile_cons_of_pos hc] at h
      exact ih a r h
    · rw [List.dropWhile_cons_of_neg hc] at h
      cases h
      exact Bool.of_not_eq_true hc

/-- `shlex` whitespace is Python whitespace. -/
theorem shWs_pyWs (c : Char) (h : shWs c = true) : pyWs c = true := by
  simp only [shWs, Bool.or_eq_true, decide_eq_true_eq] at h
  simp only [pyWs, Bool.or_eq_true, decide_eq_true_eq]
  tauto

/-- Header characters are word characters. -/
theorem hdrCh_shTok (c : Char) (h : hdrCh c = true) :
    shTok c = true ∧ pyWs c = false := by
  simp only [hdrCh, Bool.and_eq_true, Bool.not_eq_true', decide_eq_false_iff_not] at h
  obtain ⟨⟨⟨h1, h2⟩, h3⟩, h4⟩ := h
  refine ⟨?_, h1⟩
  have hws : shWs c = false := by
    cases hw : shWs c
    · rfl
    · rw [shWs_pyWs c hw] at h1
      cases h1
  simp [shTok, hws, h2, h3, h4]

/-- Identifier characters are word characters and not whitespace. -/
theorem identChar_shTok (c : Char) (h : identChar c = true) :
    shTok c = true ∧ pyWs c = false := by
  simp [identChar] at h
  rcases h with (h | h) | h
  · constructor
    · simp [shTok, shWs,
        bool_pred_ne Char.isAlpha c h ' ' (by decide),
        bool_pred_ne Char.isAlpha c h '\t' (by decide),
        bool_pred_ne Char.isAlpha c h '\r' (by decide),
        bool_pred_ne Char.isAlpha c h '\n' (by decide),
        bool_pred_ne Char.isAlpha c h '\'' (by decide),
        bool_pred_ne Char.isAlpha c h '"' (by decide),
        bool_pred_ne Char.isAlpha c h '\\' (by decide)]
    · simp [pyWs,
        bool_pred_ne Char.isAlpha c h ' ' (by decide),
        bool_pred_ne Char.isAlpha c h '\t' (by decide),
        bool_pred_ne Char.isAlpha c h '\n' (by decide),
        bool_pred_ne Char.isAlpha c h '\r' (by decide),
        bool_pred_ne Char.isAlpha c h '\x0b' (by decide),
        bool_pred_ne Char.isAlpha c h '\x0c' (by decide)]
  · constructor
    · simp [shTok, shWs,
        bool_pred_ne Char.isDigit c h ' ' (by decide),
        bool_pred_ne Char.isDigit c h '\t' (by decide),
        bool_pred_ne Char.isDigit c h '\r' (by decide),
        bool_pred_ne Char.isDigit c h '\n' (by decide),
        bool_pred_ne Char.isDigit c h '\'' (by decide),
        bool_pred_ne Char.isDigit c h '"' (by decide),
        bool_pred_ne Char.isDigit c h '\\' (by decide)]
    · exact isDigit_not_ws c h
  · subst h
    exact ⟨by decide, by decide⟩

/-- Characters passing `validVarName` are identifier characters. -/
theorem validVarName_chars (x : List Char) (h : validVarName ⟨x⟩ = true) :
    x ≠ [] ∧ ∀ c ∈ x, identChar c = true := by
  unfold validVarName at h
  cases x with
  | nil => cases h
  | cons c r =>
    simp only [Bool.and_eq_true, List.all_eq_true] at h
    refine ⟨by simp, ?_⟩
    intro d hd
    rcases List.mem_cons.mp hd with h1 | h1
    · subst h1
      have h2 := h.1
      simp only [Bool.or_eq_true, decide_eq_true_eq] at h2
      simp only [identChar, Bool.or_eq_true, decide_eq_true_eq]
      tauto
    · exact h.2 d h1

/-- Strip fixes a list whose two ends are not whitespace. -/
theorem pyStripL_of_ends (c e : Char) (m : List Char) (hc : pyWs c = false)
    (he : pyWs e = false) : pyStripL (c :: m ++ [e]) = c :: m ++ [e] := by
  unfold pyStripL lstripWs rstripWs
  rw [List.cons_append, List.dropWhile_cons_of_neg (by simp [hc])]
  rw [show (c :: (m ++ [e])).reverse = e :: (m.reverse ++ [c]) from by simp]
  rw [List.dropWhile_cons_of_neg (by simp [he])]
  rw [show (e :: (m.reverse ++ [c])).reverse = (c :: m) ++ [e] from by simp]
  exact List.cons_append c m [e]

/-- Stripping only removes characters. -/
theorem mem_pyStripL (l : List Char) (x : Char) (h : x ∈ pyStripL l) : x ∈ l := by
  unfold pyStripL lstripWs rstripWs at h
  rw [List.mem_reverse] at h
  have h1 : x ∈ (l.dropWhile pyWs).reverse := (List.dropWhile_sublist pyWs).subset h
  rw [List.mem_reverse] at h1
  exact (List.dropWhile_sublist pyWs).subset h1

/-- A nonempty stripped list ends in a non-whitespace character. -/
theorem pyStripL_ends_not_ws (l : List Char) (h : pyStripL l ≠ []) :
    ∃ s e, pyStripL l = s ++ [e] ∧ pyWs e = false := by
  cases hD : (l.dropWhile pyWs).reverse.dropWhile pyWs with
  | nil =>
    exfalso
    apply h
    show ((l.dropWhile pyWs).reverse.dropWhile pyWs).reverse = []
    rw [hD]
    rfl
  | cons a r =>
    refine ⟨r.reverse, a, ?_, dropWhile_head_not pyWs _ a r hD⟩
    show ((l.dropWhile pyWs).reverse.dropWhile pyWs).reverse = r.reverse ++ [a]
    rw [hD]
    simp

/-- Splitting after a newline-terminated prefix splits at the boundary. -/
theorem splitNlL_joinNlTerm_append :
    ∀ (L : List (List Char)) (rest : List Char), (∀ l ∈ L, '\n' ∉ l) →
    splitNlL (joinNlTerm L ++ rest) = L ++ splitNlL rest := by
  intro L
  induction L with
  | nil => intro rest _; rfl
  | cons a as ih =>
    intro rest h
    rw [joinNlTerm, List.flatMap_cons,
      show (a ++ ['\n']) ++ as.flatMap (fun l => l ++ ['\n']) ++ rest
        = a ++ '\n' :: (as.flatMap (fun l => l ++ ['\n']) ++ rest) from by simp,
      splitNlL_flat a _ (h a (by simp)),
      show as.flatMap (fun l => l ++ ['\n']) = joinNlTerm as from rfl,
      ih rest (fun l hl => h l (by simp [hl]))]
    rfl

/-- One `shlex` step: a plain character inside a word is accumulated. -/
theorem shlexGo_word_step (c : Char) (r : List Char) (qf : Bool) (cur : List Char)
    (acc : List String) (h1 : shWs c = false) (h2 : c ≠ '\'') (h3 : c ≠ '"')
    (h4 : c ≠ '\\') :
    shlexGo (c :: r) .word qf cur acc = shlexGo r .word qf (c :: cur) acc := by
  rw [shlexGo]
  rw [if_neg (by simp [h1]), if_neg h2, if_neg h3, if_neg h4]

/-- One `shlex` step: a plain character between tokens opens a word. -/
theorem shlexGo_out_step (c : Char) (r : List Char) (qf : Bool) (cur : List Char)
    (acc : List String) (h1 : shWs c = false) (h2 : c ≠ '\'') (h3 : c ≠ '"')
    (h4 : c ≠ '\\') :
    shlexGo (c :: r) .out qf cur acc = shlexGo r .word false [c] acc := by
  rw [shlexGo]
  rw [if_neg (by simp [h1]), if_neg h2, if_neg h3, if_neg h4]

/-- One `shlex` step: inside double quotes an unexceptional character is
accumulated. -/
theorem shlexGo_dq_step (c : Char) (r : List Char) (qf : Bool) (cur : List Char)
    (acc : List String) (h3 : c ≠ '"') (h4 : c ≠ '\\') :
    shlexGo (c :: r) .dquote qf cur acc = shlexGo r .dquote qf (c :: cur) acc := by
  rw [shlexGo]
  rw [if_neg h3, if_neg h4]

/-- A run of word characters is accumulated wholesale. -/
theorem shlexGo_word_acc : ∀ (x : List Char), (∀ c ∈ x, shTok c = true) →
    ∀ (rest : List Char) (qf : Bool) (cur : List Char) (acc : List String),
    shlexGo (x ++ rest) .word qf cur acc = shlexGo rest .word qf (x.reverse ++ cur) acc := by
  intro x
  induction x with
  | nil =>
    intro _ rest qf cur acc
    simp
  | cons c xs ih =>
    intro h rest qf cur acc
    have hc := h c (by simp)
    simp only [shTok, Bool.and_eq_true, Bool.not_eq_true', decide_eq_false_iff_not] at hc
    rw [List.cons_append,
      shlexGo_word_step c _ qf cur acc hc.1.1.1 hc.1.1.2 hc.1.2 hc.2,
      ih (fun d hd => h d (by simp [hd])) rest qf (c :: cur) acc,
      show xs.reverse ++ (c :: cur) = (c :: xs).reverse ++ cur from by simp]

/-- A run of unexceptional characters inside double quotes is
accumulated wholesale. -/
theorem shlexGo_dquote_acc : ∀ (t : List Char), (∀ c ∈ t, c ≠ '"' ∧ c ≠ '\\') →
    ∀ (rest : List Char) (qf : Bool) (cur : List Char) (acc : List String),
    shlexGo (t ++ rest) .dquote qf cur acc = shlexGo rest .dquote qf (t.reverse ++ cur) acc := by
  intro t
  induction t with
  | nil =>
    intro _ rest qf cur acc
    simp
  | cons c ts ih =>
    intro h rest qf cur acc
    have hc := h c (by simp)
    rw [List.cons_append, shlexGo_dq_step c _ qf cur acc hc.1 hc.2,
      ih (fun d hd => h d (by simp [hd])) rest qf (c :: cur) acc,
      show ts.reverse ++ (c :: cur) = (c :: ts).reverse ++ cur from by simp]

/-- Tokenizing a serialized `set` line: the keyword, the bare name, the
double-quoted value. -/
theorem shlex_set_line (x t : List Char) (hxne : x ≠ [])
    (hx : ∀ c ∈ x, shTok c = true) (ht : ∀ c ∈ t, c ≠ '"' ∧ c ≠ '\\') :
    shlexGo ("set ".data ++ (x ++ (' ' :: '"' :: (t ++ ['"'])))) .out false [] [] =
      some ["set", ⟨x⟩, ⟨t⟩] := by
  show shlexGo (x ++ (' ' :: '"' :: (t ++ ['"']))) .out false [] ["set"] =
    some ["set", ⟨x⟩, ⟨t⟩]
  obtain ⟨x0, xr, hx0⟩ : ∃ x0 xr, x = x0 :: xr := by
    cases hxx : x with
    | nil => exact absurd hxx hxne
    | cons a r => exact ⟨a, r, rfl⟩
  subst hx0
  have hc0 := hx x0 (by simp)
  simp only [shTok, Bool.and_eq_true, Bool.not_eq_true', decide_eq_false_iff_not] at hc0
  rw [List.cons_append, shlexGo_out_step x0 _ false [] ["set"] hc0.1.1.1 hc0.1.1.2
    hc0.1.2 hc0.2,
    shlexGo_word_acc xr (fun d hd => hx d (by simp [hd])) _ false [x0] ["set"]]
  rw [show shlexGo (' ' :: '"' :: (t ++ ['"'])) .word false (xr.reverse ++ [x0]) ["set"]
      = shlexGo (t ++ ['"']) .dquote true []
          [⟨(xr.reverse ++ [x0]).reverse⟩, "set"] from by
    rw [shlexGo]
    rw [if_pos (by decide)]
    rw [shlexGo]
    rfl]
  rw [shlexGo_dquote_acc t ht ['"'] true [] _]
  rw [shlexGo]
  rw [if_pos rfl]
  rw [shlexGo]
  simp

/-- Tokenizing a serialized `define` line. -/
theorem shlex_define_line (ty nm : List Char) (htyne : ty ≠ []) (hnmne : nm ≠ [])
    (hty : ∀ c ∈ ty, shTok c = true) (hnm : ∀ c ∈ nm, shTok c = true) :
    shlexGo ("define ".data ++ (ty ++ (' ' :: nm))) .out false [] [] =
      some ["define", ⟨ty⟩, ⟨nm⟩] := by
  show shlexGo (ty ++ (' ' :: nm)) .out false [] ["define"] = some ["define", ⟨ty⟩, ⟨nm⟩]
  obtain ⟨t0, tr, ht0⟩ : ∃ t0 tr, ty = t0 :: tr := by
    cases htt : ty with
    | nil => exact absurd htt htyne
    | cons a r => exact ⟨a, r, rfl⟩
  subst ht0
  have hc0 := hty t0 (by simp)
  simp only [shTok, Bool.and_eq_true, Bool.not_eq_true', decide_eq_false_iff_not] at hc0
  rw [List.cons_append, shlexGo_out_step t0 _ false [] ["define"] hc0.1.1.1 hc0.1.1.2
    hc0.1.2 hc0.2,
    shlexGo_word_acc tr (fun d hd => hty d (by simp [hd])) _ false [t0] ["define"]]
  rw [show shlexGo (' ' :: nm) .word false (tr.reverse ++ [t0]) ["define"]
      = shlexGo nm .out false [] [⟨(tr.reverse ++ [t0]).reverse⟩, "define"] from by
    rw [shlexGo]
    rw [if_pos (by decide)]]
  obtain ⟨n0, nr, hn0⟩ : ∃ n0 nr, nm = n0 :: nr := by
    cases hnn : nm with
    | nil => exact absurd hnn hnmne
    | cons a r => exact ⟨a, r, rfl⟩
  subst hn0
  have hd0 := hnm n0 (by simp)
  simp only [shTok, Bool.and_eq_true, Bool.not_eq_true', decide_eq_false_iff_not] at hd0
  rw [shlexGo_out_step n0 _ false [] _ hd0.1.1.1 hd0.1.1.2 hd0.1.2 hd0.2]
  have hacc := shlexGo_word_acc nr (fun d hd => hnm d (by simp [hd])) [] false [n0]
    [⟨(tr.reverse ++ [t0]).reverse⟩, "define"]
  rw [List.append_nil] at hacc
  rw [hacc]
  rw [shlexGo]
  rw [if_neg (by simp)]
  simp

/-- `parse_comment` rejects a line whose stripped head is `d`. -/
theorem parse_comment_head_d (st : ItemSt) (line rest : List Char)
    (h : pyStripL line = 'd' :: rest) : parse_comment st line = none := by
  unfold parse_comment
  rw [h]
  rfl

/-- `parse_comment` rejects a line whose stripped head is `s`. -/
theorem parse_comment_head_s (st : ItemSt) (line rest : List Char)
    (h : pyStripL line = 's' :: rest) : parse_comment st line = none := by
  unfold parse_comment
  rw [h]
  rfl

/-- A validated `set` stores the auto-typed value. -/
theorem setVar_ok (st : ItemSt) (x : String) (v : Value) (h : validVarName x = true) :
    setVar st x v = .ok { st with vars := alUpdate x (auto_type v) st.vars } := by
  unfold setVar
  rw [h]
  rfl

/-- A serialized `define` header line parses as a no-op. -/
theorem parse_variable_define (st : ItemSt) (ty nm : List Char) (htyne : ty ≠ [])
    (hnmne : nm ≠ []) (hty : ∀ c ∈ ty, hdrCh c = true) (hnm : ∀ c ∈ nm, hdrCh c = true) :
    parse_variable st ("define ".data ++ (ty ++ (' ' :: nm))) = .ok st := by
  obtain ⟨nI, nE, hnsplit⟩ : ∃ nI nE, nm = nI ++ [nE] := by
    cases hrev : nm.reverse with
    | nil => exact absurd (by simpa using congrArg List.reverse hrev) hnmne
    | cons a r => exact ⟨r.reverse, a, by simpa using congrArg List.reverse hrev⟩
  have hNE : pyWs nE = false := (hdrCh_shTok nE (hnm nE (by simp [hnsplit]))).2
  have hstrip : pyStripL ("define ".data ++ (ty ++ (' ' :: nm)))
      = "define ".data ++ (ty ++ (' ' :: nm)) := by
    have h0 := pyStripL_of_ends 'd' nE ("efine ".data ++ (ty ++ (' ' :: nI)))
      (by decide) hNE
    rw [show ('d' :: ("efine ".data ++ (ty ++ (' ' :: nI)))) ++ [nE]
        = "define ".data ++ (ty ++ (' ' :: nm)) from by simp [hnsplit]] at h0
    exact h0
  have hsh : shlexSplit ⟨pyStripL ("define ".data ++ (ty ++ (' ' :: nm)))⟩
      = some ["define", ⟨ty⟩, ⟨nm⟩] := by
    rw [hstrip]
    show shlexGo ("define ".data ++ (ty ++ (' ' :: nm))) .out false [] [] = _
    exact shlex_define_line ty nm htyne hnmne
      (fun c hc => (hdrCh_shTok c (hty c hc)).1)
      (fun c hc => (hdrCh_shTok c (hnm c hc)).1)
  unfold parse_variable
  rw [parse_comment_head_d st _ ("efine ".data ++ (ty ++ (' ' :: nm)))
    (by rw [hstrip]; rfl), hsh]
  rfl

/-- A serialized `set` line parses into a `set` of the quoted value. -/
theorem parse_variable_set (st : ItemSt) (x t : List Char)
    (hxv : validVarName ⟨x⟩ = true) (ht : ∀ c ∈ t, c ≠ '"' ∧ c ≠ '\\') :
    parse_variable st ('\t' :: ("set ".data ++ (x ++ (' ' :: '"' :: (t ++ ['"']))))) =
      setVar st ⟨x⟩ (.s ⟨t⟩) := by
  obtain ⟨hxne, hxid⟩ := validVarName_chars x hxv
  have hstrip : pyStripL ('\t' :: ("set ".data ++ (x ++ (' ' :: '"' :: (t ++ ['"'])))))
      = "set ".data ++ (x ++ (' ' :: '"' :: (t ++ ['"']))) := by
    rw [pyStripL_tab]
    have h0 := pyStripL_of_ends 's' '"' ("et ".data ++ (x ++ (' ' :: '"' :: t)))
      (by decide) (by decide)
    rw [show ('s' :: ("et ".data ++ (x ++ (' ' :: '"' :: t)))) ++ ['"']
        = "set ".data ++ (x ++ (' ' :: '"' :: (t ++ ['"']))) from by simp] at h0
    exact h0
  have hsh : shlexSplit ⟨pyStripL ('\t' :: ("set ".data ++ (x ++ (' ' :: '"' :: (t ++ ['"'])))))⟩
      = some ["set", ⟨x⟩, ⟨t⟩] := by
    rw [hstrip]
    show shlexGo ("set ".data ++ (x ++ (' ' :: '"' :: (t ++ ['"'])))) .out false [] [] = _
    exact shlex_set_line x t hxne (fun c hc => (identChar_shTok c (hxid c hc)).1) ht
  unfold parse_variable
  rw [parse_comment_head_s st _ ("et ".data ++ (x ++ (' ' :: '"' :: (t ++ ['"']))))
    (by rw [hstrip]; rfl), hsh]
  rfl

/-- A fresh key is appended by `alUpdate`. -/
theorem alUpdate_fresh (k : String) (v : Value) :
    ∀ A : List (String × Value), alLookup k A = none → alUpdate k v A = A ++ [(k, v)] := by
  intro A
  induction A with
  | nil => intro _; rfl
  | cons p r ih =>
    intro h
    obtain ⟨k2, w⟩ := p
    unfold alLookup at h
    by_cases hp : k2 = k
    · rw [if_pos hp] at h
      cases h
    · rw [if_neg hp] at h
      unfold alUpdate
      rw [if_neg hp, ih h]
      rfl

/-- Appending a differently-named binding keeps a lookup failing. -/
theorem alLookup_append_none (k q : String) (w : Value) (hq : q ≠ k) :
    ∀ A, alLookup k A = none → alLookup k (A ++ [(q, w)]) = none := by
  intro A
  induction A with
  | nil =>
    intro _
    simp only [List.nil_append]
    unfold alLookup
    rw [if_neg hq]
    rfl
  | cons p r ih =>
    intro h
    obtain ⟨k2, w2⟩ := p
    unfold alLookup at h
    by_cases hp : k2 = k
    · rw [if_pos hp] at h
      cases h
    · rw [if_neg hp] at h
      show (if k2 = k then some w2 else alLookup k (r ++ [(q, w)])) = none
      rw [if_neg hp]
      exact ih h

/-- Folding fresh, pairwise-distinct bindings appends them in order. -/
theorem foldl_alUpdate_fresh : ∀ (vl A : List (String × Value)),
    (∀ p ∈ vl, alLookup p.1 A = none) → (vl.map Prod.fst).Nodup →
    vl.foldl (fun a p => alUpdate p.1 p.2 a) A = A ++ vl := by
  intro vl
  induction vl with
  | nil =>
    intro A _ _
    simp
  | cons p r ih =>
    intro A h hnd
    rw [List.foldl_cons, alUpdate_fresh p.1 p.2 A (h p (by simp))]
    rw [ih (A ++ [(p.1, p.2)]) ?fresh ?nd]
    · simp
    case fresh =>
      intro q hq
      apply alLookup_append_none q.1 p.1 p.2 ?_ A (h q (by simp [hq]))
      intro he
      rw [List.map_cons, List.nodup_cons] at hnd
      exact hnd.1 (by rw [he]; exact List.mem_map_of_mem Prod.fst hq)
    case nd =>
      rw [List.map_cons, List.nodup_cons] at hnd
      exact hnd.2

/-- Absent names are not `contains`-ed (the `reserved_words` check). -/
theorem contains_false_of_not_mem (L : List String) (x : String) (h : x ∉ L) :
    L.contains x = false := by
  simp [h]

/-- The generic no-op/update step of the line loop: with no block open,
a line whose stripped head is not an underscore is handed to
`parse_variable`. -/
theorem line_step_plain (st st2 : ItemSt) (line : List Char) (c : Char) (r2 : List Char)
    (sT : Bool) (rest : List (List Char))
    (hstrip : pyStripL line = c :: r2) (hc : c ≠ '_')
    (hpv : parse_variable st line = .ok st2) :
    from_string_lines st none sT (line :: rest) = from_string_lines st2 none sT rest := by
  rw [from_string_lines]
  simp only [hstrip]
  rw [if_neg ?h1, if_neg ?h2]
  case h1 =>
    intro he
    injection he with h3 _
    exact hc h3
  case h2 =>
    intro hb
    simp only [Bool.and_eq_true, decide_eq_true_eq] at hb
    have h3 := hb.1
    rw [List.take_cons (show 0 < 2 by decide)] at h3
    injection h3 with h4 _
    exact hc h4
  rw [hpv]

/-- A comment line with a clean stripped body appends the body. -/
theorem parse_variable_comment (st : ItemSt) (line S : List Char)
    (hstrip : pyStripL line = '#' :: S) :
    parse_variable st line = .ok { st with comments := st.comments ++ [⟨S⟩] } := by
  unfold parse_variable parse_comment
  rw [hstrip]
  rfl

/-- Stripping a serialized comment line keeps `#`, the space, and the
stripped body. -/
theorem comment_line_strip (S : List Char)
    (hlast : ∃ s e, S = s ++ [e] ∧ pyWs e = false) :
    pyStripL ('\t' :: '#' :: ' ' :: S) = '#' :: ' ' :: S := by
  rw [pyStripL_tab]
  obtain ⟨s, e, hs, he⟩ := hlast
  have h0 := pyStripL_of_ends '#' e (' ' :: s) (by decide) he
  rw [show ('#' :: (' ' :: s)) ++ [e] = '#' :: ' ' :: S from by simp [hs]] at h0
  exact h0

/-- Processing one serialized comment line. -/
theorem line_step_comment (st : ItemSt) (S : List Char) (sT : Bool)
    (rest : List (List Char)) (hlast : ∃ s e, S = s ++ [e] ∧ pyWs e = false) :
    from_string_lines st none sT (('\t' :: '#' :: ' ' :: S) :: rest) =
      from_string_lines { st with comments := st.comments ++ [⟨' ' :: S⟩] } none sT rest := by
  have hstrip := comment_line_strip S hlast
  exact line_step_plain st _ _ '#' (' ' :: S) sT rest hstrip (by decide)
    (parse_variable_comment st _ (' ' :: S) hstrip)

/-- Processing the serialized header line. -/
theorem line_step_define (st : ItemSt) (ty nm : List Char) (sT : Bool)
    (rest : List (List Char)) (htyne : ty ≠ []) (hnmne : nm ≠ [])
    (hty : ∀ c ∈ ty, hdrCh c = true) (hnm : ∀ c ∈ nm, hdrCh c = true) :
    from_string_lines st none sT (("define ".data ++ (ty ++ (' ' :: nm))) :: rest) =
      from_string_lines st none sT rest := by
  obtain ⟨nI, nE, hnsplit⟩ : ∃ nI nE, nm = nI ++ [nE] := by
    cases hrev : nm.reverse with
    | nil => exact absurd (by simpa using congrArg List.reverse hrev) hnmne
    | cons a r => exact ⟨r.reverse, a, by simpa using congrArg List.reverse hrev⟩
  have hNE : pyWs nE = false := (hdrCh_shTok nE (hnm nE (by simp [hnsplit]))).2
  have hstrip : pyStripL ("define ".data ++ (ty ++ (' ' :: nm)))
      = "define ".data ++ (ty ++ (' ' :: nm)) := by
    have h0 := pyStripL_of_ends 'd' nE ("efine ".data ++ (ty ++ (' ' :: nI)))
      (by decide) hNE
    rw [show ('d' :: ("efine ".data ++ (ty ++ (' ' :: nI)))) ++ [nE]
        = "define ".data ++ (ty ++ (' ' :: nm)) from by simp [hnsplit]] at h0
    exact h0
  exact line_step_plain st st _ 'd' ("efine ".data ++ (ty ++ (' ' :: nm))) sT rest
    (by rw [hstrip]; rfl) (by decide)
    (parse_variable_define st ty nm htyne hnmne hty hnm)

/-- Processing one serialized flat `set` line. -/
theorem line_step_set (st : ItemSt) (x t : List Char) (sT : Bool)
    (rest : List (List Char)) (hxv : validVarName ⟨x⟩ = true)
    (ht : ∀ c ∈ t, c ≠ '"' ∧ c ≠ '\\') :
    from_string_lines st none sT
        (('\t' :: ("set ".data ++ (x ++ (' ' :: '"' :: (t ++ ['"']))))) :: rest) =
      from_string_lines { st with vars := alUpdate ⟨x⟩ (auto_type (.s ⟨t⟩)) st.vars }
        none sT rest := by
  have hstrip : pyStripL ('\t' :: ("set ".data ++ (x ++ (' ' :: '"' :: (t ++ ['"'])))))
      = "set ".data ++ (x ++ (' ' :: '"' :: (t ++ ['"']))) := by
    rw [pyStripL_tab]
    have h0 := pyStripL_of_ends 's' '"' ("et ".data ++ (x ++ (' ' :: '"' :: t)))
      (by decide) (by decide)
    rw [show ('s' :: ("et ".data ++ (x ++ (' ' :: '"' :: t)))) ++ ['"']
        = "set ".data ++ (x ++ (' ' :: '"' :: (t ++ ['"']))) from by simp] at h0
    exact h0
  exact line_step_plain st _ _ 's' ("et ".data ++ (x ++ (' ' :: '"' :: (t ++ ['"'])))) sT
    rest (by rw [hstrip]; rfl) (by decide)
    (by rw [parse_variable_set st x t hxv ht, setVar_ok st ⟨x⟩ (.s ⟨t⟩) hxv])

/-- Processing a serialized block-opening line. -/
theorem line_step_blockopen (st : ItemSt) (x : List Char) (sT : Bool)
    (rest : List (List Char)) (hxv : validVarName ⟨x⟩ = true)
    (hxres : (⟨x⟩ : String) ∉ reservedWords) (hxend : (⟨x⟩ : String) ≠ "end") :
    from_string_lines st none sT (('\t' :: (('_' :: '_' :: x) ++ ['_', '_'])) :: rest) =
      from_string_lines st (some (⟨x⟩, [])) true rest := by
  obtain ⟨hxne, hxid⟩ := validVarName_chars x hxv
  have hstrip : pyStripL ('\t' :: (('_' :: '_' :: x) ++ ['_', '_']))
      = ('_' :: '_' :: x) ++ ['_', '_'] := by
    rw [pyStripL_tab]
    have h0 := pyStripL_of_ends '_' '_' (('_' :: x) ++ ['_']) (by decide) (by decide)
    rw [show ('_' :: (('_' :: x) ++ ['_'])) ++ ['_']
        = ('_' :: '_' :: x) ++ ['_', '_'] from by simp] at h0
    exact h0
  rw [from_string_lines]
  simp only [hstrip]
  rw [if_neg ?hend, if_pos ?hshape]
  case hend =>
    intro he
    injection he with h1 he
    injection he with h2 he
    have he2 : x ++ ['_', '_'] = ['e', 'n', 'd'] ++ ['_', '_'] := by simpa using he
    have hx3 : x = ['e', 'n', 'd'] := (List.append_inj' he2 rfl).1
    apply hxend
    rw [hx3]
  case hshape =>
    simp only [Bool.and_eq_true, decide_eq_true_eq]
    constructor
    · rw [show (('_' :: '_' :: x) ++ ['_', '_']) = '_' :: '_' :: (x ++ ['_', '_'])
        from by simp]
      rfl
    · rw [show (('_' :: '_' :: x) ++ ['_', '_']).reverse
          = '_' :: '_' :: (x.reverse ++ ['_', '_']) from by simp]
      rfl
  have hinner : ((('_' :: '_' :: x) ++ ['_', '_']).drop 2).dropLast.dropLast = x := by
    rw [show (('_' :: '_' :: x) ++ ['_', '_']) = '_' :: '_' :: (x ++ ['_', '_'])
        from by simp]
    rw [List.drop_succ_cons, List.drop_succ_cons, List.drop_zero,
      show x ++ ['_', '_'] = (x ++ ['_']) ++ ['_'] from by simp,
      List.dropLast_concat, List.dropLast_concat]
  simp only [hinner]
  rw [contains_false_of_not_mem reservedWords ⟨x⟩ hxres]
  simp only [Bool.false_eq_true, if_false]
  rw [if_pos ?hne]
  case hne =>
    intro he
    apply hxne
    have := congrArg String.data he
    simpa using this
  rfl

/-- Accumulating the serialized body lines of an open block. -/
theorem block_lines_fold : ∀ (L : List (List Char)) (st : ItemSt) (x : String)
    (val : List Char) (rest : List (List Char)),
    (∀ l ∈ L, ¬ dangerShape l) →
    from_string_lines st (some (x, val)) true (L.map (fun l => '\t' :: l) ++ rest) =
      from_string_lines st (some (x, val ++ joinNlTerm L)) true rest := by
  intro L
  induction L with
  | nil =>
    intro st x val rest _
    simp [joinNlTerm]
  | cons a as ih =>
    intro st x val rest h
    rw [List.map_cons, List.cons_append, from_string_lines]
    simp only [pyStripL_tab]
    rw [if_neg ?hend, if_neg ?hshape]
    case hend =>
      intro he
      apply h a (by simp)
      unfold dangerShape
      rw [he]
      exact ⟨rfl, rfl⟩
    case hshape =>
      intro hb
      apply h a (by simp)
      unfold dangerShape
      simp only [Bool.and_eq_true, decide_eq_true_eq] at hb
      exact hb
    show from_string_lines st (some (x, val ++ a ++ ['\n'])) true
        (as.map (fun l => '\t' :: l) ++ rest) = _
    rw [ih st x (val ++ a ++ ['\n']) rest (fun l hl => h l (by simp [hl])),
      show val ++ a ++ ['\n'] ++ joinNlTerm as = val ++ joinNlTerm (a :: as) from by
        simp [joinNlTerm]]

/-- Processing the closing `__end__` line commits the block. -/
theorem line_step_blockend (st : ItemSt) (x : String) (val : List Char) (sT : Bool)
    (rest : List (List Char)) (hxv : validVarName x = true) :
    from_string_lines st (some (x, val)) sT (('\t' :: "__end__".data) :: rest) =
      from_string_lines { st with vars := alUpdate x (auto_type (.s ⟨val⟩)) st.vars }
        none sT rest := by
  rw [from_string_lines]
  have hstrip : pyStripL ('\t' :: "__end__".data) = "__end__".data := rfl
  simp only [hstrip]
  rw [if_pos trivial]
  rw [setVar_ok st x (.s ⟨val⟩) hxv]

/-- The trailing empty line left by splitting is a no-op, and the loop
then returns the state. -/
theorem from_string_lines_last (st : ItemSt) (sT : Bool) :
    from_string_lines st none sT [[]] = .ok st := rfl

/-- The serializer's trailing strip only acts on the suffix when the
suffix keeps a character. -/
theorem rstripTabNl_append (A B : List Char) (h : rstripTabNl B ≠ []) :
    rstripTabNl (A ++ B) = A ++ rstripTabNl B := by
  unfold rstripTabNl at h ⊢
  rw [List.reverse_append, List.dropWhile_append]
  have hB : (B.reverse.dropWhile (fun c => c = '\t' || c = '\n')).isEmpty = false := by
    cases hE : B.reverse.dropWhile (fun c => c = '\t' || c = '\n') with
    | nil =>
      rw [hE] at h
      exact absurd rfl h
    | cons a r => rfl
  rw [if_neg (by simp [hB])]
  simp

/-- The serializer's trailing strip on a block's final body lines: the
`\t`, the final empty piece, and the last newline go; the penultimate
line's last character stops the loop. -/
theorem rstripTabNl_tail (p : List Char) (hgp : goodPenult p = true) :
    rstripTabNl ('\t' :: p ++ ['\n', '\t', '\n']) = '\t' :: p := by
  obtain ⟨c, s, hrev, hc⟩ : ∃ c s, p.reverse = c :: s ∧ (c = '\t' || c = '\n') = false := by
    unfold goodPenult at hgp
    cases hrev : p.reverse with
    | nil =>
      rw [hrev] at hgp
      cases hgp
    | cons a r =>
      rw [hrev] at hgp
      exact ⟨a, r, rfl, by simpa using hgp⟩
  unfold rstripTabNl
  rw [show ('\t' :: p ++ ['\n', '\t', '\n']).reverse
      = '\n' :: '\t' :: '\n' :: (p.reverse ++ ['\t']) from by simp]
  rw [List.dropWhile_cons_of_pos (by decide), List.dropWhile_cons_of_pos (by decide),
    List.dropWhile_cons_of_pos (by decide), hrev, List.cons_append,
    List.dropWhile_cons_of_neg (by simp [hc])]
  rw [show (c :: (s ++ ['\t'])).reverse = '\t' :: p from by
    rw [show c :: (s ++ ['\t']) = (c :: s) ++ ['\t'] from rfl, ← hrev]
    simp]

/-- Integer renderings consist of a sign and digits. -/
theorem intReprL_chars (n : Int) (c : Char) (h : c ∈ intReprL n) :
    c = '-' ∨ c.isDigit = true := by
  unfold intReprL at h
  by_cases hn : n < 0
  · rw [if_pos hn] at h
    rcases List.mem_cons.mp h with h1 | h1
    · exact Or.inl h1
    · exact Or.inr ((natReprL_spec n.natAbs).2.1 c h1)
  · rw [if_neg hn] at h
    exact Or.inr ((natReprL_spec n.natAbs).2.1 c h)

/-- Integer renderings contain no quote, backslash or newline. -/
theorem intReprL_tokSafe (n : Int) : ∀ c ∈ intReprL n, (c ≠ '"' ∧ c ≠ '\\') ∧ c ≠ '\n' := by
  intro c hc
  rcases intReprL_chars n c hc with h | h
  · subst h
    exact ⟨⟨by decide, by decide⟩, by decide⟩
  · exact ⟨⟨bool_pred_ne Char.isDigit c h '"' (by decide),
      bool_pred_ne Char.isDigit c h '\\' (by decide)⟩,
      bool_pred_ne Char.isDigit c h '\n' (by decide)⟩

/-- Identifier characters are not newlines. -/
theorem identChar_not_nl (c : Char) (h : identChar c = true) : c ≠ '\n' := by
  intro he
  have h2 := (identChar_shTok c h).2
  rw [he] at h2
  exact absurd h2 (by decide)

/-- A non-numeric string survives `auto_type`. -/
theorem auto_type_str_id (t : String) (h : pyFloatParse t = none) :
    auto_type (.s t) = .s t := by
  show (match pyFloatParse t with
    | some q => if q.exp = 0 then Value.i q.num else Value.f q
    | none => Value.s t) = Value.s t
  rw [h]

/-- The serialized block chunk for a safe block value: its lines, and
their effect on the line loop. -/
theorem var_chunk_block (x t : String) (hxv : validVarName x = true) (hb : blockSafe x t)
    (hblk : isBlockVal (.s t) = true) :
    ∃ L : List (List Char), (∀ l ∈ L, '\n' ∉ l) ∧
      '\t' :: variable_to_string x (.s t) = joinNlTerm L ∧
      ∀ (st : ItemSt) (sT : Bool) (rest : List (List Char)),
        from_string_lines st none sT (L ++ rest) =
          from_string_lines { st with vars := alUpdate x (.s t) st.vars } none true rest := by
  obtain ⟨hres, hend, hnum, init, p, hsplit, hgp, hdanger⟩ := hb
  have hxid := (validVarName_chars x.data hxv).2
  refine ⟨('\t' :: (('_' :: '_' :: x.data) ++ ['_', '_'])) ::
    ((init ++ [p]).map (fun l => '\t' :: l) ++ [('\t' :: "__end__".data)]), ?nl, ?eq, ?st⟩
  case nl =>
    intro l hl
    rcases List.mem_cons.mp hl with h1 | h1
    · subst h1
      intro hmem
      simp at hmem
      exact identChar_not_nl '\n' (hxid '\n' hmem) rfl
    · rcases List.mem_append.mp h1 with h2 | h2
      · obtain ⟨l0, hl0, rfl⟩ := List.mem_map.mp h2
        intro hmem
        rcases List.mem_cons.mp hmem with h3 | h3
        · exact absurd h3 (by decide)
        · have hm : l0 ∈ splitNlL t.data := by
            rw [hsplit]
            rcases List.mem_append.mp hl0 with h4 | h4
            · exact List.mem_append.mpr (Or.inl h4)
            · simp at h4
              simp [h4]
          exact splitNlL_no_nl t.data l0 hm h3
      · simp at h2
        subst h2
        intro hmem
        exact absurd hmem (by decide)
  case eq =>
    unfold variable_to_string
    rw [hblk, if_pos rfl]
    show '\t' :: (rstripTabNl ('_' :: '_' :: x.data ++ '_' :: '_' :: '\n' ::
        (splitNlL t.data).flatMap (fun l => '\t' :: l ++ ['\n'])) ++
        '\n' :: '\t' :: "__end__\n".data) = _
    rw [hsplit]
    rw [show ('_' :: '_' :: x.data ++ '_' :: '_' :: '\n' ::
        (init ++ [p, []]).flatMap (fun l => '\t' :: l ++ ['\n']))
      = ('_' :: '_' :: x.data ++ '_' :: '_' :: '\n' ::
          init.flatMap (fun l => '\t' :: l ++ ['\n'])) ++
        (('\t' :: p) ++ ['\n', '\t', '\n']) from by simp]
    rw [rstripTabNl_append _ _ (by rw [rstripTabNl_tail p hgp]; simp),
      rstripTabNl_tail p hgp]
    simp [joinNlTerm]
    rw [List.flatMap_map]
    rfl
  case st =>
    intro st sT rest
    rw [List.cons_append, line_step_blockopen st x.data sT _ hxv hres hend,
      List.append_assoc]
    rw [block_lines_fold (init ++ [p]) st x [] _ hdanger]
    rw [show ([] : List Char) ++ joinNlTerm (init ++ [p]) = t.data from by
      rw [List.nil_append]
      have h1 := joinNlSep_splitNlL t.data
      rw [hsplit, show (init ++ [p, []] : List (List Char)) = (init ++ [p]) ++ [[]]
          from by simp, joinNlSep_concat] at h1
      exact h1]
    rw [show (['\t' :: "__end__".data] : List (List Char)) ++ rest
        = ('\t' :: "__end__".data) :: rest from rfl]
    rw [line_step_blockend st x t.data true rest hxv]
    rw [show auto_type (.s ⟨t.data⟩) = .s t from auto_type_str_id t hnum]

/-- The serialized chunk of any safe binding: its lines and their
effect on the line loop. -/
theorem var_chunk (x : String) (v : Value) (h : varSafe x v) :
    ∃ L : List (List Char), (∀ l ∈ L, '\n' ∉ l) ∧
      '\t' :: variable_to_string x v = joinNlTerm L ∧
      ∀ (st : ItemSt) (sT : Bool) (rest : List (List Char)), ∃ sT2,
        from_string_lines st none sT (L ++ rest) =
          from_string_lines { st with vars := alUpdate x v st.vars } none sT2 rest := by
  obtain ⟨hxv, hrest⟩ := h
  have hxid := (validVarName_chars x.data hxv).2
  cases v with
  | i n =>
    refine ⟨['\t' :: ("set ".data ++ (x.data ++ (' ' :: '"' :: (intReprL n ++ ['"']))))],
      ?nl, ?eq, ?st⟩
    case nl =>
      intro l hl
      simp at hl
      subst hl
      intro hmem
      simp at hmem
      rcases hmem with h1 | h1
      · exact identChar_not_nl '\n' (hxid '\n' h1) rfl
      · exact (intReprL_tokSafe n '\n' h1).2 rfl
    case eq =>
      simp [variable_to_string, isBlockVal, pyStrV, joinNlTerm]
    case st =>
      intro st sT rest
      refine ⟨sT, ?_⟩
      have hstep := line_step_set st x.data (intReprL n) sT rest hxv
        (fun c hc => (intReprL_tokSafe n c hc).1)
      rw [show auto_type (.s ⟨intReprL n⟩) = .i n from auto_type_intRepr n] at hstep
      exact hstep
  | s t =>
    by_cases hblk : '\n' ∈ t.data ∨ '"' ∈ t.data
    · have hb : blockSafe x t := by
        have h3 : (if '\n' ∈ t.data ∨ '"' ∈ t.data then blockSafe x t else flatSafe t) :=
          hrest
        rw [if_pos hblk] at h3
        exact h3
      have hbv : isBlockVal (.s t) = true := by
        unfold isBlockVal
        rcases hblk with h1 | h1
        · simp [h1]
        · simp [h1]
      obtain ⟨L, hnl, heq, hst⟩ := var_chunk_block x t hxv hb hbv
      exact ⟨L, hnl, heq, fun st sT rest => ⟨true, hst st sT rest⟩⟩
    · have hf : flatSafe t := by
        have h3 : (if '\n' ∈ t.data ∨ '"' ∈ t.data then blockSafe x t else flatSafe t) :=
          hrest
        rw [if_neg hblk] at h3
        exact h3
      push_neg at hblk
      refine ⟨['\t' :: ("set ".data ++ (x.data ++ (' ' :: '"' :: (t.data ++ ['"']))))],
        ?nl, ?eq, ?st⟩
      case nl =>
        intro l hl
        simp at hl
        subst hl
        intro hmem
        simp at hmem
        rcases hmem with h1 | h1
        · exact identChar_not_nl '\n' (hxid '\n' h1) rfl
        · exact hblk.1 h1
      case eq =>
        have hbv : isBlockVal (.s t) = false := by
          unfold isBlockVal
          simp [hblk.1, hblk.2]
        simp [variable_to_string, hbv, pyStrV, joinNlTerm]
      case st =>
        intro st sT rest
        refine ⟨sT, ?_⟩
        have hstep := line_step_set st x.data t.data sT rest hxv
          (fun c hc => ⟨fun he => hblk.2 (he ▸ hc), fun he => hf.2 (he ▸ hc)⟩)
        rw [show auto_type (.s ⟨t.data⟩) = .s t from auto_type_str_id t hf.1] at hstep
        exact hstep
  | f q => exact (hrest : False).elim
  | b bv => exact (hrest : False).elim
  | strList l => exact (hrest : False).elim
  | pynone => exact (hrest : False).elim
  | obj tag => exact (hrest : False).elim

/-- Serialized safe bindings in sequence: lines and loop effect. -/
theorem vars_chunks : ∀ (vl : List (String × Value)), (∀ p ∈ vl, varSafe p.1 p.2) →
    ∃ L : List (List Char), (∀ l ∈ L, '\n' ∉ l) ∧
      vl.flatMap (fun p => '\t' :: variable_to_string p.1 p.2) = joinNlTerm L ∧
      ∀ (st : ItemSt) (sT : Bool) (rest : List (List Char)), ∃ sT2,
        from_string_lines st none sT (L ++ rest) =
          from_string_lines
            { st with vars := vl.foldl (fun a p => alUpdate p.1 p.2 a) st.vars }
            none sT2 rest := by
  intro vl
  induction vl with
  | nil =>
    intro _
    exact ⟨[], by simp, rfl, fun st sT rest => ⟨sT, rfl⟩⟩
  | cons q vr ih =>
    intro h
    obtain ⟨L1, hnl1, heq1, hst1⟩ := var_chunk q.1 q.2 (h q (by simp))
    obtain ⟨L2, hnl2, heq2, hst2⟩ := ih (fun p hp => h p (by simp [hp]))
    refine ⟨L1 ++ L2, ?nl, ?eq, ?st⟩
    case nl =>
      intro l hl
      rcases List.mem_append.mp hl with h1 | h1
      · exact hnl1 l h1
      · exact hnl2 l h1
    case eq =>
      rw [List.flatMap_cons, heq1, heq2, joinNlTerm, joinNlTerm, joinNlTerm,
        List.flatMap_append]
    case st =>
      intro st sT rest
      obtain ⟨sT2, h1⟩ := hst1 st sT (L2 ++ rest)
      obtain ⟨sT3, h2⟩ := hst2 { st with vars := alUpdate q.1 q.2 st.vars } sT2 rest
      refine ⟨sT3, ?_⟩
      rw [List.append_assoc, h1, h2]
      rfl

/-- Serialized safe comments in sequence append themselves. -/
theorem comments_fold : ∀ (cl : List String) (st : ItemSt) (sT : Bool)
    (rest : List (List Char)), (∀ c ∈ cl, commentSafe c) →
    from_string_lines st none sT
        (cl.map (fun c => '\t' :: '#' :: ' ' :: pyStripL c.data) ++ rest) =
      from_string_lines { st with comments := st.comments ++ cl } none sT rest := by
  intro cl
  induction cl with
  | nil =>
    intro st sT rest _
    simp
  | cons c cr ih =>
    intro st sT rest h
    obtain ⟨hnl, hSne, hshape⟩ := h c (by simp)
    rw [List.map_cons, List.cons_append,
      line_step_comment st (pyStripL c.data) sT _ (pyStripL_ends_not_ws c.data hSne),
      show (⟨' ' :: pyStripL c.data⟩ : String) = c from congrArg String.mk hshape.symm,
      ih { st with comments := st.comments ++ [c] } sT rest (fun d hd => h d (by simp [hd])),
      List.append_assoc]
    rfl

/-- C1 (amended): the serialize/parse round trip reproduces the
definition on the safe class: nonempty header fields of plain
characters; comments that are a space plus their nonempty stripped
body; a variable map with pairwise-distinct valid identifier names
whose values are integers, non-numeric backslash-free flat strings, or
non-numeric block strings ending in exactly one newline whose last
content line does not end in tab or newline and none of whose lines
strips to a `__…__` marker, under a name that is neither reserved nor
`end`.  Parsing `to_string d` into any host item reproduces exactly
`d`'s comments (appended) and exactly `d`'s variable map. -/
theorem parse_serialize_roundtrip (d st0 : ItemSt) (h : roundTripSafe d) :
    from_string st0 ⟨to_string d none⟩ =
      .ok { st0 with comments := st0.comments ++ d.comments, vars := d.vars } := by
  obtain ⟨htyne, hty, hnmne, hnm, hcom, hnd, hvars⟩ := h
  have hty2 : ∀ c ∈ d.itemType.data, hdrCh c = true := by
    rw [List.all_eq_true] at hty
    exact hty
  have hnm2 : ∀ c ∈ d.name.data, hdrCh c = true := by
    rw [List.all_eq_true] at hnm
    exact hnm
  obtain ⟨Lv, hnlv, heqv, hstv⟩ := vars_chunks d.vars hvars
  have hchars : to_string d none =
      joinNlTerm ((("define ".data ++ (d.itemType.data ++ (' ' :: d.name.data))) ::
        (d.comments.map (fun c => '\t' :: '#' :: ' ' :: pyStripL c.data) ++ Lv))) := by
    unfold to_string
    rw [joinNlTerm, List.flatMap_cons, List.flatMap_append,
      show Lv.flatMap (fun l => l ++ ['\n']) = joinNlTerm Lv from rfl, ← heqv,
      List.flatMap_map]
    simp
  have hsplitStream : splitNlL (to_string d none) =
      (("define ".data ++ (d.itemType.data ++ (' ' :: d.name.data))) ::
        (d.comments.map (fun c => '\t' :: '#' :: ' ' :: pyStripL c.data) ++ Lv)) ++ [[]] := by
    rw [hchars, ← splitNlL_joinNlTerm _ ?hnl]
    case hnl =>
      intro l hl
      rcases List.mem_cons.mp hl with h1 | h1
      · subst h1
        intro hmem
        simp at hmem
        rcases hmem with h2 | h2
        · have h3 := hty2 '\n' h2
          exact absurd h3 (by decide)
        · have h3 := hnm2 '\n' h2
          exact absurd h3 (by decide)
      · rcases List.mem_append.mp h1 with h2 | h2
        · obtain ⟨c, hc, rfl⟩ := List.mem_map.mp h2
          intro hmem
          simp at hmem
          exact (hcom c hc).1 (mem_pyStripL c.data '\n' hmem)
        · exact hnlv l h2
  show from_string_lines { st0 with vars := [] } none false
      (splitNlL (to_string d none)) = _
  rw [hsplitStream,
    show ((("define ".data ++ (d.itemType.data ++ (' ' :: d.name.data))) ::
        (d.comments.map (fun c => '\t' :: '#' :: ' ' :: pyStripL c.data) ++ Lv)) ++ [[]])
      = ("define ".data ++ (d.itemType.data ++ (' ' :: d.name.data))) ::
        (d.comments.map (fun c => '\t' :: '#' :: ' ' :: pyStripL c.data) ++ (Lv ++ [[]]))
      from by simp,
    line_step_define { st0 with vars := [] } d.itemType.data d.name.data false _
      htyne hnmne hty2 hnm2,
    comments_fold d.comments { st0 with vars := [] } false (Lv ++ [[]]) hcom]
  obtain ⟨sT2, hv⟩ := hstv
    { st0 with vars := [], comments := st0.comments ++ d.comments } false [[]]
  rw [hv, from_string_lines_last]
  have hfold := foldl_alUpdate_fresh d.vars [] (fun p _ => rfl) hnd
  rw [List.nil_append] at hfold
  rw [show ({ st0 with vars := [], comments := st0.comments ++ d.comments } : ItemSt).vars
      = ([] : List (String × Value)) from rfl, hfold]

/-- Introduction form for a safe integer binding. -/
theorem varSafe_int (x : String) (n : Int) (hxv : validVarName x = true) :
    varSafe x (.i n) := ⟨hxv, trivial⟩

/-- Introduction form for a safe flat string binding. -/
theorem varSafe_flat (x t : String) (hxv : validVarName x = true)
    (hcond : ¬('\n' ∈ t.data ∨ '"' ∈ t.data)) (hf : flatSafe t) : varSafe x (.s t) := by
  refine ⟨hxv, ?_⟩
  show (if '\n' ∈ t.data ∨ '"' ∈ t.data then blockSafe x t else flatSafe t)
  rw [if_neg hcond]
  exact hf

/-- Introduction form for a safe block string binding. -/
theorem varSafe_block (x t : String) (hxv : validVarName x = true)
    (hcond : '\n' ∈ t.data ∨ '"' ∈ t.data) (hb : blockSafe x t) : varSafe x (.s t) := by
  refine ⟨hxv, ?_⟩
  show (if '\n' ∈ t.data ∨ '"' ∈ t.data then blockSafe x t else flatSafe t)
  rw [if_pos hcond]
  exact hb

/-- Witness for the amended C1 round trip: serializing and re-parsing
`rtDemo` reproduces its comment and all three variables exactly. -/
theorem parse_serialize_roundtrip_witness :
    from_string baseItem ⟨to_string rtDemo none⟩ =
      .ok { baseItem with
        comments := [" note"],
        vars := [("x", .i 3), ("msg", .s "hello world"),
          ("txt", .s "line1\"\nline2\n")] } :=
  parse_serialize_roundtrip rtDemo baseItem
    ⟨by decide, by decide, by decide, by decide, by decide, by decide, by
      intro p hp
      simp only [rtDemo, List.mem_cons, List.not_mem_nil, or_false] at hp
      rcases hp with rfl | rfl | rfl
      · exact varSafe_int "x" 3 (by decide)
      · exact varSafe_flat "msg" "hello world" (by decide) (by decide)
          ⟨by decide, by decide⟩
      · exact varSafe_block "txt" "line1\"\nline2\n" (by decide) (by decide)
          ⟨by decide, by decide, by decide, ["line1\"".data], "line2".data,
            by decide, by decide, by decide⟩⟩

/-! ## Claim C1 counterexample -/

/-- C1 counterexample: re-parsing the serialization of the definition
with comment `"c"` and variables `{x: 'a"'}` succeeds but yields
comment `" c"` (the comment-line parse keeps the space after `#`) and
`{x: 'a"\n'}` (the textblock emitter appends a final newline that the
parser keeps), so `from_string(to_string(d))` does not reproduce
`d`. -/
theorem parse_serialize_cx :
    (from_string baseItem ⟨to_string dBad none⟩).map (fun r => (r.comments, r.vars))
      = .ok ([" c"], [("x", .s "a\"\n")]) ∧
    ([" c"], [("x", Value.s "a\"\n")]) ≠ (dBad.comments, dBad.vars) :=
  ⟨by decide, by decide⟩

/-! ## Claim C3: cycle detection

Unfolding lemmas for the interpreter, shared by the substitution
claims. -/

/-- Rebuilding a string from its characters is the identity. -/
theorem strMkData (s : String) : (⟨s.data⟩ : String) = s := rfl

/-- Unfold one `get` step once the name resolves to an item variable
and the guard does not trip. -/
theorem run_get_unfold (f : Nat) (v : String) (st : ItemSt) (val : Value)
    (hl : st.lock ≠ some v) (hv : getattrItem st v = some val) :
    run (f + 1) (.get v true) st
      = match run f (.evalText val false false false) { st with lock := some v } with
        | none => none
        | some (.error e, st2) => some (.error e, st2)
        | some (.ok w, st2) => some (.ok w, { st2 with lock := none }) := by
  simp only [run]
  rw [if_neg hl, hv]
  rfl

/-- Unfold one `eval_text` step on a string input without float
rounding. -/
theorem run_evalText_s (f : Nat) (txt : String) (si qs : Bool) (st : ItemSt) :
    run (f + 1) (.evalText (.s txt) false si qs) st
      = run f (.evalLoop txt.data none false si qs) st := rfl

/-- Unfold one substitution-loop step at a found reference (with
`soft_ignore` off). -/
theorem run_evalLoop_found (f : Nat) (txt pre post : List Char) (nm : String)
    (qs : Bool) (st : ItemSt) (hf : find_variable txt = some (pre, nm.data, post)) :
    run (f + 1) (.evalLoop txt none false false qs) st
      = match run f (.get nm true) st with
        | none => none
        | some (.error e, st2) => some (.error e, st2)
        | some (.ok val, st2) =>
          match substText false qs none val with
          | .error e => some (.error e, st2)
          | .ok vs => run f (.evalLoop (pre ++ vs.data ++ post) none false false qs) st2 := by
  simp only [run, hf]
  rw [strMkData]
  rfl

/-- C3 amended (positive part): `get` on a variable whose string
value's leftmost bracketed reference is the variable itself raises
`RecursionError` (leaving the guard set, per C2). -/
theorem get_selfref_recursion_error (st : ItemSt) (x t : String) (pre post : List Char)
    (hv : alLookup x st.vars = some (.s t))
    (hf : find_variable t.data = some (pre, x.data, post))
    (hl : st.lock ≠ some x) (fuel : Nat) (hfuel : 4 ≤ fuel) :
    run fuel (.get x true) st
      = some (.error (.recursionError x st.name), { st with lock := some x }) := by
  obtain ⟨f, rfl⟩ : ∃ f, fuel = f + 4 := ⟨fuel - 4, by omega⟩
  have hga : getattrItem st x = some (.s t) := by
    unfold getattrItem
    rw [hv]
  rw [run_get_unfold (f + 3) x st (.s t) hl hga, run_evalText_s (f + 2) t false false]
  rw [run_evalLoop_found (f + 1) t.data pre post x false _ hf]
  have hrec : run (f + 1) (.get x true) { st with lock := some x }
      = some (.error (.recursionError x st.name), { st with lock := some x }) := by
    simp only [run]
    rfl
  rw [hrec]

/-- C3 amended witness: the positive part at the store `{x: "[x]"}`. -/
theorem get_selfref_recursion_error_witness :
    run 10 (.get "x" true) storeSelfRef
      = some (.error (.recursionError "x" "itm"), { storeSelfRef with lock := some "x" }) := by
  have h := get_selfref_recursion_error storeSelfRef "x" "[x]" [] []
    (by decide) (by decide) (by decide) 10 (by omega)
  exact h

/-- Helper for the C3 counterexample: in the two-cycle store
`{a: "[b]", b: "[a]"}`, `get` of either name under any lock different
from that name exhausts every amount of fuel: each nested `get`
overwrites the single guard, so the cycle never trips it and the
recursion never returns. -/
theorem cycleRunNone : ∀ (n : Nat) (l : Option String),
    (l ≠ some "a" → run n (.get "a" true) { storeCycle with lock := l } = none) ∧
    (l ≠ some "b" → run n (.get "b" true) { storeCycle with lock := l } = none) := by
  intro n
  induction n using Nat.strong_induction_on with
  | _ n ih =>
  intro l
  constructor
  · intro hla
    match n with
    | 0 => rfl
    | m + 1 =>
      rw [run_get_unfold m "a" { storeCycle with lock := l } (.s "[b]") hla rfl]
      match m with
      | 0 => rfl
      | k + 1 =>
        rw [run_evalText_s k "[b]" false false]
        match k with
        | 0 => rfl
        | j + 1 =>
          rw [run_evalLoop_found j "[b]".data [] [] "b" false _ rfl]
          have hb : run j (.get "b" true) { storeCycle with lock := some "a" } = none :=
            (ih j (by omega) (some "a")).2 (by simp)
          rw [show ({ ({ storeCycle with lock := l } : ItemSt) with lock := some "a" } : ItemSt)
            = { storeCycle with lock := some "a" } from rfl, hb]
  · intro hlb
    match n with
    | 0 => rfl
    | m + 1 =>
      rw [run_get_unfold m "b" { storeCycle with lock := l } (.s "[a]") hlb rfl]
      match m with
      | 0 => rfl
      | k + 1 =>
        rw [run_evalText_s k "[a]" false false]
        match k with
        | 0 => rfl
        | j + 1 =>
          rw [run_evalLoop_found j "[a]".data [] [] "a" false _ rfl]
          have hap : run j (.get "a" true) { storeCycle with lock := some "b" } = none :=
            (ih j (by omega) (some "b")).1 (by simp)
          rw [show ({ ({ storeCycle with lock := l } : ItemSt) with lock := some "b" } : ItemSt)
            = { storeCycle with lock := some "b" } from rfl, hap]

/-- C3 counterexample: on the two-cycle store `{a: "[b]", b: "[a]"}`,
`get("a")` neither returns nor raises for any amount of fuel — the
guard never fires because every nested `get` overwrites it — so a
looping chain with no direct self-reference does not terminate with
`RecursionError` (the source is stopped only by the host interpreter's
stack limit). -/
theorem get_cycle_diverges :
    ¬ ∃ (n : Nat) (r : Except Err Value × ItemSt), run n (.get "a" true) storeCycle = some r := by
  rintro ⟨n, r, h⟩
  have h2 : run n (.get "a" true) storeCycle = none := (cycleRunNone n none).1 (by simp)
  rw [h2] at h
  cases h

/-! ## Claim C8: the sanitization round trip

Helper lemmas.  The round-trip proof decomposes the input into maximal
plain (kept-verbatim) runs separated by escaped characters, shows the
leftmost decode always happens at the leftmost escape token, and
commutes the decode loop over the already-decoded prefix. -/

/-- Replacing a pattern by itself is the identity (the modelled
`linesep` normalization on a POSIX host). -/
theorem replaceAllAux_self : ∀ (f : Nat) (l : List Char),
    replaceAllAux ['\n'] ['\n'] f l = l := by
  intro f
  induction f with
  | zero => intro l; rfl
  | succ f ih =>
    intro l
    match l with
    | [] => rfl
    | c :: r =>
      by_cases hc : c = '\n'
      · subst hc
        simp [replaceAllAux, List.isPrefixOf, ih]
      · simp [replaceAllAux, List.isPrefixOf, hc, ih]

/-- A plain character is kept verbatim. -/
theorem escChar_plain (c : Char) (h : plainCh c = true) : escChar false c = [c] := by
  simp only [plainCh, Bool.and_eq_true, decide_eq_true_eq, ne_eq] at h
  simp [escChar, h.1, h.2, Nat.not_lt.mpr h.1]

/-- A non-plain character is escaped to its token. -/
theorem escChar_esc (c : Char) (h : plainCh c = false) :
    escChar false c = escToken c.toNat ∧ (127 < c.toNat ∨ c.toNat = 92) := by
  constructor
  · by_cases h1 : 127 < c.toNat
    · simp [escChar, h1]
    · by_cases h2 : c.toNat = 92
      · simp [escChar, h2]
      · exfalso
        simp [plainCh, Nat.not_lt.mp h1, h2] at h
  · by_cases h1 : 127 < c.toNat
    · exact .inl h1
    · by_cases h2 : c.toNat = 92
      · exact .inr h2
      · exfalso
        simp [plainCh, Nat.not_lt.mp h1, h2] at h

/-- The escaping map keeps plain runs verbatim. -/
theorem escMap_plain : ∀ (P : List Char), (∀ c ∈ P, plainCh c = true) → escMap P = P := by
  intro P hP
  induction P with
  | nil => rfl
  | cons c r ih =>
    simp only [escMap, List.flatMap_cons]
    rw [escChar_plain c (hP c (by simp))]
    have := ih (fun x hx => hP x (by simp [hx]))
    simp only [escMap] at this
    simp [this]

/-- A token never starts at a position holding a character that is
neither `'+'` nor a hex digit, as long as at least one and at most five
characters precede it. -/
theorem headToken_midchar_none (T X : List Char) (ch : Char)
    (h0 : T ≠ []) (h5 : T.length < 6) (hp : ch ≠ '+') (hh : isHexU ch = false) :
    headToken (T ++ ch :: X) = none := by
  match T, h0 with
  | [t0], _ =>
    match X with
    | [] => rfl
    | [x1] => rfl
    | [x1, x2] => rfl
    | [x1, x2, x3] => rfl
    | x1 :: x2 :: x3 :: x4 :: xr => simp [headToken, hp]
  | [t0, t1], _ =>
    match X with
    | [] => rfl
    | [x1] => rfl
    | [x1, x2] => rfl
    | x1 :: x2 :: x3 :: xr => simp [headToken, hh]
  | [t0, t1, t2], _ =>
    match X with
    | [] => rfl
    | [x1] => rfl
    | x1 :: x2 :: xr => simp [headToken, hh]
  | [t0, t1, t2, t3], _ =>
    match X with
    | [] => rfl
    | x1 :: xr => simp [headToken, hh]
  | [t0, t1, t2, t3, t4], _ => simp [headToken, hh]
  | t0 :: t1 :: t2 :: t3 :: t4 :: t5 :: tr, _ => exact absurd h5 (by simp)

/-- A token never starts at a character other than `'U'`. -/
theorem headToken_head_none (X : List Char) (ch : Char) (hu : ch ≠ 'U') :
    headToken (ch :: X) = none := by
  match X with
  | [] => rfl
  | [x1] => rfl
  | [x1, x2] => rfl
  | [x1, x2, x3] => rfl
  | [x1, x2, x3, x4] => rfl
  | x1 :: x2 :: x3 :: x4 :: x5 :: xr => simp [headToken, hu]

/-- Whether a six-character window opens a token depends only on the
window, so a list with at least six characters can be extended without
changing `headToken`-emptiness. -/
theorem headToken_long_none_iff (t0 t1 t2 t3 t4 t5 : Char) (T Z : List Char) :
    headToken (t0 :: t1 :: t2 :: t3 :: t4 :: t5 :: (T ++ Z)) = none
      ↔ headToken (t0 :: t1 :: t2 :: t3 :: t4 :: t5 :: T) = none := by
  simp only [headToken]
  split <;> simp

/-- An escaped-class character is not `'U'`, not `'+'` and not a hex
digit. -/
theorem escClass_not_token_char (e : Char) (he : 127 < e.toNat ∨ e.toNat = 92) :
    e ≠ 'U' ∧ e ≠ '+' ∧ isHexU e = false := by
  refine ⟨fun h => by subst h; revert he; decide,
    fun h => by subst h; revert he; decide, ?_⟩
  simp only [isHexU, Bool.or_eq_false_iff, Bool.and_eq_false_iff,
    decide_eq_false_iff_not, Nat.not_le]
  omega

/-- The one-step decode commutes over a prefix in which (relative to
the given tail) no token starts. -/
theorem unsanStep_append (A : List Char) :
    ∀ Y : List Char, (∀ i, i < A.length → headToken (List.drop i A ++ Y) = none) →
    unsanStep (A ++ Y) = (unsanStep Y).map (A ++ ·) := by
  induction A with
  | nil =>
    intro Y _
    simp
  | cons a A ih =>
    intro Y h
    have h0 : headToken (a :: (A ++ Y)) = none := by
      have h00 := h 0 (by simp)
      rw [List.drop_zero, List.cons_append] at h00
      exact h00
    rw [List.cons_append, unsanStep]
    rw [h0]
    have := ih Y (fun i hi => by
      have := h (i + 1) (by simpa using Nat.succ_lt_succ hi)
      simpa using this)
    rw [this, Option.map_map]
    rfl

/-- The decode loop commutes over a prefix in which no token ever
starts, whatever the tail becomes. -/
theorem unsanLoop_append (A : List Char)
    (hA : ∀ (X : List Char) (i : Nat), i < A.length → headToken (List.drop i A ++ X) = none) :
    ∀ (f : Nat) (Y : List Char), unsanLoop f (A ++ Y) = A ++ unsanLoop f Y := by
  intro f
  induction f with
  | zero => intro Y; rfl
  | succ f ih =>
    intro Y
    rw [unsanLoop, unsanStep_append A Y (hA Y), unsanLoop]
    cases hY : unsanStep Y with
    | none => rfl
    | some Y2 => exact ih Y2

/-- A token-free list decodes to itself. -/
theorem unsanLoop_none (l : List Char) (h : unsanStep l = none) :
    ∀ f, unsanLoop f l = l := by
  intro f
  cases f with
  | zero => rfl
  | succ f => rw [unsanLoop, h]

/-- Token-freeness of the whole list is token-freeness at every
position. -/
theorem unsanStep_none_iff : ∀ l : List Char,
    unsanStep l = none ↔ ∀ i, headToken (List.drop i l) = none := by
  intro l
  induction l with
  | nil =>
    constructor
    · intro _ i
      rw [List.drop_nil]
      rfl
    · intro _
      rfl
  | cons c r ih =>
    rw [unsanStep]
    cases h0 : headToken (c :: r) with
    | some p =>
      simp only []
      constructor
      · intro h; cases h
      · intro h
        have := h 0
        simp [h0] at this
    | none =>
      simp only [Option.map_eq_none']
      rw [ih]
      constructor
      · intro h i
        cases i with
        | zero => simpa using h0
        | succ i => simpa using h i
      · intro h i
        have := h (i + 1)
        simpa using this

/-- A hex digit below 16 renders to a hex-digit character. -/
theorem isHexU_hexDigitU (m : Nat) (h : m < 16) : isHexU (hexDigitU m) = true := by
  interval_cases m <;> decide

/-- Reading back a rendered hex digit recovers its value. -/
theorem hexVal_hexDigitU (m : Nat) (h : m < 16) : hexVal (hexDigitU m) = m := by
  interval_cases m <;> decide

/-- One-digit rendering needs no fuel. -/
theorem hexReprAux_small (f m : Nat) (h : m < 16) : hexReprAux f m = [hexDigitU m] := by
  cases f with
  | zero => rfl
  | succ f => simp [hexReprAux, h]

/-- One unfolding of the hex rendering. -/
theorem hexReprAux_step (f m : Nat) (h : 16 ≤ m) :
    hexReprAux (f + 1) m = hexReprAux f (m / 16) ++ [hexDigitU (m % 16)] := by
  simp [hexReprAux, Nat.not_lt.mpr h]

/-- The escape token of a BMP code point: `U+` and exactly four hex
digits. -/
theorem escToken_bmp (n : Nat) (hn : n < 65536) :
    escToken n = ['U', '+', hexDigitU (n / 4096), hexDigitU (n / 256 % 16),
      hexDigitU (n / 16 % 16), hexDigitU (n % 16)] := by
  rcases Nat.lt_or_ge n 16 with h1 | h1
  · have e1 : n / 4096 = 0 := by omega
    have e2 : n / 256 % 16 = 0 := by omega
    have e3 : n / 16 % 16 = 0 := by omega
    have e4 : n % 16 = n := by omega
    rw [escToken, hexReprL, hexReprAux_small n n h1, e1, e2, e3, e4]
    rfl
  rcases Nat.lt_or_ge n 256 with h2 | h2
  · obtain ⟨f, rfl⟩ : ∃ f, n = f + 1 := ⟨n - 1, by omega⟩
    have e1 : (f + 1) / 4096 = 0 := by omega
    have e2 : (f + 1) / 256 % 16 = 0 := by omega
    have e3 : (f + 1) / 16 % 16 = (f + 1) / 16 := Nat.mod_eq_of_lt (by omega)
    rw [escToken, hexReprL, hexReprAux_step f (f + 1) h1,
      hexReprAux_small f ((f + 1) / 16) (by omega), e1, e2, e3]
    rfl
  rcases Nat.lt_or_ge n 4096 with h3 | h3
  · obtain ⟨f, rfl⟩ : ∃ f, n = f + 2 := ⟨n - 2, by omega⟩
    have e1 : (f + 2) / 4096 = 0 := by omega
    have e2 : (f + 2) / 256 % 16 = (f + 2) / 256 := Nat.mod_eq_of_lt (by omega)
    have e16 : 16 ≤ (f + 2) / 16 := by omega
    have ed : (f + 2) / 16 / 16 = (f + 2) / 256 := by omega
    rw [escToken, hexReprL, hexReprAux_step (f + 1) (f + 2) (by omega),
      hexReprAux_step f ((f + 2) / 16) e16, ed,
      hexReprAux_small f ((f + 2) / 256) (by omega), e1, e2]
    simp [hexDigitU]
  · obtain ⟨f, rfl⟩ : ∃ f, n = f + 3 := ⟨n - 3, by omega⟩
    have e16 : 16 ≤ (f + 3) / 16 := by omega
    have e256 : 16 ≤ (f + 3) / 256 := by omega
    have ed1 : (f + 3) / 16 / 16 = (f + 3) / 256 := by omega
    have ed2 : (f + 3) / 256 / 16 = (f + 3) / 4096 := by omega
    have e1 : (f + 3) / 4096 % 16 = (f + 3) / 4096 := Nat.mod_eq_of_lt (by omega)
    rw [escToken, hexReprL, hexReprAux_step (f + 2) (f + 3) (by omega),
      hexReprAux_step (f + 1) ((f + 3) / 16) e16, ed1,
      hexReprAux_step f ((f + 3) / 256) e256, ed2,
      hexReprAux_small f ((f + 3) / 4096) (by omega)]
    simp

/-- Decoding starts with the escape token of an escaped BMP character
and recovers it. -/
theorem unsanStep_token (e : Char) (hbmp : e.toNat < 65536) (X : List Char) :
    unsanStep (escToken e.toNat ++ X) = some (e :: X) := by
  rw [escToken_bmp e.toNat hbmp]
  have hh : headToken ('U' :: '+' :: hexDigitU (e.toNat / 4096) :: hexDigitU (e.toNat / 256 % 16)
      :: hexDigitU (e.toNat / 16 % 16) :: hexDigitU (e.toNat % 16) :: X) = some (e, X) := by
    rw [headToken]
    rw [if_pos ⟨rfl, rfl, isHexU_hexDigitU _ (by omega), isHexU_hexDigitU _ (by omega),
      isHexU_hexDigitU _ (by omega), isHexU_hexDigitU _ (by omega)⟩]
    rw [hexVal_hexDigitU _ (by omega), hexVal_hexDigitU _ (by omega),
      hexVal_hexDigitU _ (by omega), hexVal_hexDigitU _ (by omega)]
    have harith : e.toNat / 4096 * 4096 + e.toNat / 256 % 16 * 256
        + e.toNat / 16 % 16 * 16 + e.toNat % 16 = e.toNat := by omega
    rw [harith, Char.ofNat_toNat]
  simp only [List.cons_append, List.nil_append]
  rw [unsanStep, hh]

/-- Windows starting inside the plain run, continued by a character
that is neither `'+'` nor a hex digit, never open a token; uses the
global token-freeness for windows lying wholly inside the run. -/
theorem plain_window_none (cs P : List Char) (e : Char) (R : List Char)
    (hsplit : cs = P ++ e :: R)
    (htf : ∀ i, headToken (List.drop i cs) = none) :
    ∀ i, i < P.length → ∀ (Z : List Char) (ch : Char), ch ≠ '+' → isHexU ch = false →
      headToken (List.drop i P ++ ch :: Z) = none := by
  intro i hi Z ch hp hh
  have hTne : List.drop i P ≠ [] := by
    intro hnil
    have := congrArg List.length hnil
    simp at this
    omega
  rcases Nat.lt_or_ge (List.drop i P).length 6 with h6 | h6
  · exact headToken_midchar_none _ Z ch hTne h6 hp hh
  · have hglob : headToken (List.drop i P ++ e :: R) = none := by
      have h0 := htf i
      rwa [hsplit, List.drop_append_of_le_length (by omega)] at h0
    rcases hT : List.drop i P with _ | ⟨a0, T1⟩
    · simp [hT] at h6
    rcases T1 with _ | ⟨a1, T2⟩
    · simp [hT] at h6
    rcases T2 with _ | ⟨a2, T3⟩
    · simp [hT] at h6
    rcases T3 with _ | ⟨a3, T4⟩
    · simp [hT] at h6
    rcases T4 with _ | ⟨a4, T5⟩
    · simp [hT] at h6
    rcases T5 with _ | ⟨a5, T6⟩
    · simp [hT] at h6
    rw [hT] at hglob
    simp only [List.cons_append] at hglob ⊢
    exact (headToken_long_none_iff a0 a1 a2 a3 a4 a5 T6 (ch :: Z)).mpr
      ((headToken_long_none_iff a0 a1 a2 a3 a4 a5 T6 (e :: R)).mp hglob)

/-- The sanitization round trip on char lists: escaping then decoding a
token-free list of BMP characters is the identity, whatever sufficient
fuel the decode loop is given. -/
theorem unsanLoop_escMap : ∀ (N : Nat) (cs : List Char), cs.length ≤ N →
    (∀ c ∈ cs, c.toNat < 65536) →
    (∀ i, headToken (List.drop i cs) = none) →
    ∀ f, (escMap cs).length ≤ f → unsanLoop f (escMap cs) = cs := by
  intro N
  induction N with
  | zero =>
    intro cs hlen _ _ f _
    have hnil : cs = [] := List.eq_nil_of_length_eq_zero (by omega)
    subst hnil
    exact unsanLoop_none [] rfl f
  | succ N ih =>
    intro cs hlen hbmp htf f hf
    obtain ⟨P, hPdef⟩ : ∃ P, cs.takeWhile plainCh = P := ⟨_, rfl⟩
    have hsplit0 := List.takeWhile_append_dropWhile plainCh cs
    rw [hPdef] at hsplit0
    cases hD : cs.dropWhile plainCh with
    | nil =>
      rw [hD] at hsplit0
      have hcs : P = cs := by simpa using hsplit0
      have hallp : ∀ c ∈ cs, plainCh c = true := by
        intro c hc
        rw [← hcs, ← hPdef] at hc
        exact List.mem_takeWhile_imp hc
      rw [escMap_plain cs hallp]
      exact unsanLoop_none cs ((unsanStep_none_iff cs).mpr htf) f
    | cons e R =>
      rw [hD] at hsplit0
      have hsplit : cs = P ++ e :: R := hsplit0.symm
      have hPmem : ∀ c ∈ P, plainCh c = true := by
        intro c hc
        rw [← hPdef] at hc
        exact List.mem_takeWhile_imp hc
      have hePlain : plainCh e = false := dropWhile_head_not plainCh cs e R hD
      have heEsc := (escChar_esc e hePlain).1
      have heCls := (escChar_esc e hePlain).2
      have heTok := escClass_not_token_char e heCls
      have htokBmp : e.toNat < 65536 := hbmp e (by rw [hsplit]; simp)
      have hEsc : escMap cs = P ++ (escToken e.toNat ++ escMap R) := by
        conv_lhs => rw [hsplit]
        simp only [escMap, List.flatMap_append, List.flatMap_cons]
        rw [heEsc]
        have hplainMap := escMap_plain P hPmem
        simp only [escMap] at hplainMap
        rw [hplainMap]
      have hPwin := plain_window_none cs P e R hsplit htf
      have hTokLen : (escToken e.toNat).length = 6 := by
        rw [escToken_bmp _ htokBmp]
        rfl
      have hLenCs : (escMap cs).length = P.length + (6 + (escMap R).length) := by
        rw [hEsc]
        simp [hTokLen]
      obtain ⟨f2, rfl⟩ : ∃ f2, f = f2 + 1 := ⟨f - 1, by omega⟩
      have step1 : unsanStep (escMap cs) = some (P ++ e :: escMap R) := by
        rw [hEsc, unsanStep_append P _ ?hwin]
        · rw [unsanStep_token e htokBmp (escMap R)]
          rfl
        case hwin =>
          intro i hi
          rw [escToken_bmp _ htokBmp]
          exact hPwin i hi _ 'U' (by decide) (by decide)
      have hA : ∀ (X : List Char) (i : Nat), i < (P ++ [e]).length →
          headToken (List.drop i (P ++ [e]) ++ X) = none := by
        intro X i hi
        rcases Nat.lt_or_ge i P.length with hiP | hiP
        · rw [List.drop_append_of_le_length (by omega), List.append_assoc,
            List.singleton_append]
          exact hPwin i hiP X e heTok.2.1 heTok.2.2
        · have hieq : i = P.length := by
            simp only [List.length_append, List.length_cons, List.length_nil] at hi
            omega
          subst hieq
          have hdrop : List.drop P.length (P ++ [e]) = [e] := by
            simp
          rw [hdrop, List.singleton_append]
          exact headToken_head_none X e heTok.1
      rw [unsanLoop, step1]
      show unsanLoop f2 (P ++ e :: escMap R) = cs
      have hform : P ++ e :: escMap R = (P ++ [e]) ++ escMap R := by simp
      rw [hform, unsanLoop_append (P ++ [e]) hA f2 (escMap R)]
      have hRlen : R.length ≤ N := by
        have hl := congrArg List.length hsplit
        simp at hl
        omega
      have hRbmp : ∀ c ∈ R, c.toNat < 65536 := fun c hc => hbmp c (by rw [hsplit]; simp [hc])
      have hcs2 : cs = (P ++ [e]) ++ R := by
        conv_lhs => rw [hsplit]
        simp
      have hRtf : ∀ i, headToken (List.drop i R) = none := by
        intro i
        have h0 := htf ((P ++ [e]).length + i)
        rwa [hcs2, List.drop_append] at h0
      rw [ih R hRlen hRbmp hRtf f2 (by omega)]
      conv_rhs => rw [hcs2]

/-- C8 counterexample: a code point above `0xFFFF` escapes to five hex
digits (`U+1F600`), of which `unsanitize` decodes only the first four,
so the round trip yields the character `U+1F60` followed by a stray
`'0'` instead of the original string. -/
theorem sanitize_roundtrip_cx :
    usanitize astralStr false = "U+1F600" ∧
    unsanitize (usanitize astralStr false) = ⟨[Char.ofNat 8032, '0']⟩ ∧
    unsanitize (usanitize astralStr false) ≠ astralStr :=
  ⟨by decide, by decide, by decide⟩

/-- The modelled `replace(os.linesep, "\n")` is the identity (POSIX
host). -/
theorem replaceAllL_linesep (l : List Char) : replaceAllL l pyLinesep ['\n'] = l :=
  replaceAllAux_self l.length l

/-- C8 amended: for every string of BMP characters (code points below
`0x10000`) containing no `U+XXXX`-shaped escape token, decoding the
default-mode escaping reproduces the string exactly (on the modelled
POSIX host the line-terminator normalization is the identity); and
`unsanitize` is the identity on every token-free string.  Characters
above the BMP escape to five hex digits and break the round trip (see
the counterexample). -/
theorem sanitize_roundtrip :
    (∀ s : String, (∀ c ∈ s.data, c.toNat < 65536) → unsanStep s.data = none →
      unsanitize (usanitize s false) = s) ∧
    (∀ s : String, unsanStep s.data = none → unsanitize s = s) := by
  constructor
  · intro s hbmp htf
    have husan : usanitize s false = ⟨escMap s.data⟩ := by
      unfold usanitize
      rw [show s.data.flatMap (escChar false) = escMap s.data from rfl, replaceAllL_linesep]
    rw [husan]
    unfold unsanitize
    rw [show (String.mk (escMap s.data)).data = escMap s.data from rfl]
    rw [unsanLoop_escMap s.data.length s.data (Nat.le_refl _) hbmp
      ((unsanStep_none_iff s.data).mp htf) (escMap s.data).length (Nat.le_refl _)]
  · intro s htf
    unfold unsanitize
    rw [unsanLoop_none s.data htf]

/-- C8 witness: the round trip applied to a string holding a backslash
and `U+00A2`, and the identity clause applied to a token-free string. -/
theorem sanitize_roundtrip_witness :
    unsanitize (usanitize (⟨['a', '\\', 'b', Char.ofNat 162]⟩ : String) false)
      = ⟨['a', '\\', 'b', Char.ofNat 162]⟩ ∧
    unsanitize "plain" = "plain" := by
  constructor
  · exact sanitize_roundtrip.1 _ (by decide) (by decide)
  · exact sanitize_roundtrip.2 "plain" (by decide)

end OpenSesame
